import Mathlib

/-!
Verification of the `aadc` diagram-correction core (src/main.rs) against its
natural-language specification.

Modelling conventions:
* A line (Rust `String` without newline) is a `List Char` of Unicode scalar values.
* Rust `f64` scalars that hold scores, thresholds and confidences are modelled
  as exact rationals (`ℚ`); the literals 0.8, 0.5, … are written 8/10, 5/10, ….
* Rust `usize` arithmetic that cannot overflow in context is modelled as `Nat`.
* `std::collections::HashMap` iteration order is unspecified in Rust, so
  `detect_vertical_border` is parameterised by a reordering function `ord`
  applied to the (first-occurrence-ordered) association list of counts; an
  `ord` is admissible when it permutes its input.
* `Stats.elapsed` (wall-clock `Duration`) is not modelled.
* Out-of-range indexing, which would panic in Rust, is modelled totally with
  `List.getD` / `List.set` (a no-op out of range); all call sites stay in range.
-/

-- Batteries marks the `Rat` arithmetic operations `@[irreducible]`, which
-- blocks definitional evaluation of concrete score computations in witnesses;
-- restore the default reducibility for them (kernel-level soundness is
-- unaffected, this only re-enables unfolding).
set_option allowUnsafeReducibility true
attribute [local semireducible] Rat.add Rat.sub Rat.mul Rat.inv

namespace Aadc

/-- A text line: Unicode scalar values, no embedded newline. -/
abbrev Line := List Char

/-! ## Character classifier (src/main.rs `is_corner` … `is_border_char`) -/

/-- Rust `matches!(c, '+' | '┌' | …)`: corner pieces. -/
def isCorner (c : Char) : Bool :=
  c = '+' || c = '┌' || c = '┐' || c = '└' || c = '┘' || c = '╔' || c = '╗' ||
  c = '╚' || c = '╝' || c = '╭' || c = '╮' || c = '╯' || c = '╰'

/-- Horizontal fill characters. -/
def isHorizontalFill (c : Char) : Bool :=
  c = '-' || c = '─' || c = '━' || c = '═' || c = '╌' || c = '╍' || c = '┄' ||
  c = '┅' || c = '┈' || c = '┉' || c = '~' || c = '='

/-- Vertical border characters. -/
def isVerticalBorder (c : Char) : Bool :=
  c = '|' || c = '│' || c = '┃' || c = '║' || c = '╎' || c = '╏' || c = '┆' ||
  c = '┇' || c = '┊' || c = '┋'

/-- T-junction characters. -/
def isJunction (c : Char) : Bool :=
  c = '┬' || c = '┴' || c = '├' || c = '┤' || c = '┼' || c = '╦' || c = '╩' ||
  c = '╠' || c = '╣' || c = '╬' || c = '╤' || c = '╧' || c = '╟' || c = '╢' ||
  c = '╫' || c = '╪'

/-- Any box-drawing character. -/
def isBoxChar (c : Char) : Bool :=
  isCorner c || isHorizontalFill c || isVerticalBorder c || isJunction c

/-- Characters that may terminate a line border. -/
def isBorderChar (c : Char) : Bool :=
  isVerticalBorder c || isCorner c || isJunction c

/-! ## Whitespace and trimming (Rust `char::is_whitespace`, `str::trim*`) -/

/-- Rust `char::is_whitespace`: the Unicode `White_Space` property. -/
def rustIsWhitespace (c : Char) : Bool :=
  let n := c.toNat
  (0x9 ≤ n && n ≤ 0xD) || n = 0x20 || n = 0x85 || n = 0xA0 || n = 0x1680 ||
  (0x2000 ≤ n && n ≤ 0x200A) || n = 0x2028 || n = 0x2029 || n = 0x202F ||
  n = 0x205F || n = 0x3000

/-- Rust `str::trim_start`. -/
def trimStart (l : Line) : Line := l.dropWhile rustIsWhitespace

/-- Rust `str::trim_end`. -/
def trimEnd (l : Line) : Line := (l.reverse.dropWhile rustIsWhitespace).reverse

/-- Rust `str::trim` (both sides). -/
def trim (l : Line) : Line := trimEnd (trimStart l)

/-! ## Width model (src/main.rs `char_width`, `visual_width`) -/

/-- Visual width of a single character in terminal columns. -/
def charWidth (c : Char) : Nat :=
  if c.toNat ≤ 0x7F || isBoxChar c || c.toNat < 0x1100 then 1 else 2

/-- Visual width of a line: sum of character widths. -/
def visualWidth (l : Line) : Nat := (l.map charWidth).sum

/-! ## Line classification (src/main.rs `LineKind`, `classify_line`) -/

/-- Classification of a line's role in a diagram. -/
inductive LineKind where
  | Blank
  | None
  | Weak
  | Strong
deriving DecidableEq, Repr

/-- `LineKind::is_boxy`. -/
def LineKind.isBoxy : LineKind → Bool
  | .Weak => true
  | .Strong => true
  | _ => false

/-- src/main.rs `classify_line`. -/
def classifyLine (line : Line) : LineKind :=
  let trimmed := trim line
  if trimmed.isEmpty then .Blank
  else
    let boxChars := trimmed.countP (fun c => isBoxChar c)
    let totalChars := trimmed.length
    if boxChars = 0 then .None
    else
      let hasCorner := trimmed.any isCorner
      let startsWithBorder := (trimmed.head?.map isBorderChar).getD false
      let endsWithBorder := (trimmed.getLast?.map isBorderChar).getD false
      if hasCorner || (startsWithBorder && endsWithBorder) ||
          decide (boxChars * 3 ≥ totalChars) then .Strong
      else if 0 < boxChars then .Weak
      else .None

/-! ## Suffix borders and line analysis (src/main.rs `SuffixBorder`,
`detect_suffix_border`, `analyze_line`).  The `content` and `indent` fields of
`AnalyzedLine` are `#[allow(dead_code)]` in the source and never read by the
pipeline, so they are omitted here. -/

/-- Descriptor of the rightmost border on a line. -/
structure SuffixBorder where
  column : Nat
  char : Char
  isClosing : Bool
deriving DecidableEq, Repr

/-- src/main.rs `detect_suffix_border`. -/
def detectSuffixBorder (line : Line) : Option SuffixBorder :=
  let trimmed := trimEnd line
  match trimmed.getLast? with
  | none => none
  | some lastChar =>
    if isBorderChar lastChar then
      some { column := visualWidth trimmed.dropLast
             char := lastChar
             isClosing := isCorner lastChar || isJunction lastChar }
    else none

/-- Per-iteration snapshot of a line (src/main.rs `AnalyzedLine`). -/
structure AnalyzedLine where
  kind : LineKind
  visWidth : Nat
  suffixBorder : Option SuffixBorder
deriving DecidableEq, Repr

/-- src/main.rs `analyze_line`. -/
def analyzeLine (line : Line) : AnalyzedLine :=
  let kind := classifyLine line
  { kind := kind
    visWidth := visualWidth line
    suffixBorder := if kind.isBoxy then detectSuffixBorder line else none }

/-! ## Claim C6: classification cases -/

/-- The Strong predicate of §3, read off the trimmed line. -/
def strongPred (t : Line) : Prop :=
  t.any isCorner = true ∨
  ((t.head?.map isBorderChar).getD false = true ∧
   (t.getLast?.map isBorderChar).getD false = true) ∨
  t.countP (fun c => isBoxChar c) * 3 ≥ t.length

instance (t : Line) : Decidable (strongPred t) := by
  unfold strongPred; infer_instance

/-- The Strong predicate is what the boolean condition in `classify_line` tests. -/
lemma strongPred_iff (t : Line) :
    strongPred t ↔ (t.any isCorner ||
      (((t.head?.map isBorderChar).getD false) &&
       ((t.getLast?.map isBorderChar).getD false)) ||
      decide (t.countP (fun c => isBoxChar c) * 3 ≥ t.length)) = true := by
  unfold strongPred
  simp only [Bool.or_eq_true, Bool.and_eq_true, decide_eq_true_eq]
  tauto

/-- Claim C6: `classify_line` returns `Blank` exactly on lines that are empty
after trimming both sides; `None` exactly on non-blank lines whose trimmed
content has no box-drawing code point; `Strong` exactly when a box char is
present and the line has a corner, or starts and ends with a border code
point, or box-chars × 3 ≥ trimmed code-point count; and `Weak` in the
remaining box-char-bearing cases. -/
theorem C6_classify_line_cases (line : Line) :
    (classifyLine line = .Blank ↔ trim line = []) ∧
    (classifyLine line = .None ↔
      trim line ≠ [] ∧ (trim line).countP (fun c => isBoxChar c) = 0) ∧
    (classifyLine line = .Strong ↔
      trim line ≠ [] ∧ (trim line).countP (fun c => isBoxChar c) ≠ 0 ∧
      strongPred (trim line)) ∧
    (classifyLine line = .Weak ↔
      trim line ≠ [] ∧ (trim line).countP (fun c => isBoxChar c) ≠ 0 ∧
      ¬ strongPred (trim line)) := by
  unfold classifyLine
  by_cases h1 : (trim line).isEmpty
  · have ht : trim line = [] := List.isEmpty_iff.mp h1
    rw [if_pos h1]
    exact ⟨iff_of_true rfl ht,
      iff_of_false (by decide) (fun h => h.1 ht),
      iff_of_false (by decide) (fun h => h.1 ht),
      iff_of_false (by decide) (fun h => h.1 ht)⟩
  · rw [if_neg h1]
    replace h1 : trim line ≠ [] := fun h => h1 (List.isEmpty_iff.mpr h)
    by_cases h2 : (trim line).countP (fun c => isBoxChar c) = 0
    · rw [if_pos h2]
      exact ⟨iff_of_false (by decide) (fun h => h1 h),
        iff_of_true rfl ⟨h1, h2⟩,
        iff_of_false (by decide) (fun h => h.2.1 h2),
        iff_of_false (by decide) (fun h => h.2.1 h2)⟩
    · rw [if_neg h2]
      by_cases h3 : ((trim line).any isCorner ||
          ((((trim line).head?.map isBorderChar).getD false) &&
           (((trim line).getLast?.map isBorderChar).getD false)) ||
          decide ((trim line).countP (fun c => isBoxChar c) * 3 ≥ (trim line).length)) = true
      · rw [if_pos h3]
        have hs : strongPred (trim line) := (strongPred_iff _).mpr h3
        exact ⟨iff_of_false (by decide) (fun h => h1 h),
          iff_of_false (by decide) (fun h => h2 h.2),
          iff_of_true rfl ⟨h1, h2, hs⟩,
          iff_of_false (by decide) (fun h => h.2.2 hs)⟩
      · rw [if_neg h3]
        rw [if_pos (Nat.pos_of_ne_zero h2)]
        have hs : ¬ strongPred (trim line) := fun hp => h3 ((strongPred_iff _).mp hp)
        exact ⟨iff_of_false (by decide) (fun h => h1 h),
          iff_of_false (by decide) (fun h => h2 h.2),
          iff_of_false (by decide) (fun h => hs h.2.2),
          iff_of_true rfl ⟨h1, h2, hs⟩⟩

/-! ## Diagram block detection (src/main.rs `DiagramBlock`, `find_diagram_blocks`)

The Rust `while` loops are modelled as structural recursion on an explicit
fuel argument; callers pass a fuel that provably cannot run out (the loop
index strictly increases towards `lines.length` every step), so the fuel is
purely a termination device. -/

/-- A detected diagram block: `[start, endIdx)` line range plus confidence. -/
structure DiagramBlock where
  start : Nat
  endIdx : Nat
  confidence : ℚ
deriving DecidableEq, Repr

/-- The `None`-line lookahead in `find_diagram_blocks`:
`lines.iter().skip(end).take(3).any(|l| classify_line(l).is_boxy())`. -/
def lookaheadBoxy (lines : List Line) (endIdx : Nat) : Bool :=
  ((lines.drop endIdx).take 3).any (fun l => (classifyLine l).isBoxy)

/-- The block-growing loop of `find_diagram_blocks` (the inner `while`),
returning the final `end` index together with the strong and weak counts. -/
def growBlock (lines : List Line) : Nat → Nat → Nat → Nat → Nat → Nat × Nat × Nat
  | 0, endIdx, strong, weak, _ => (endIdx, strong, weak)
  | fuel+1, endIdx, strong, weak, gap =>
    if endIdx < lines.length then
      match classifyLine (lines.getD endIdx []) with
      | .Strong => growBlock lines fuel (endIdx+1) (strong+1) weak 0
      | .Weak => growBlock lines fuel (endIdx+1) strong (weak+1) 0
      | .Blank =>
        if gap + 1 > 1 then (endIdx, strong, weak)
        else growBlock lines fuel (endIdx+1) strong weak (gap+1)
      | .None =>
        if lookaheadBoxy lines endIdx && decide (gap = 0) then
          growBlock lines fuel (endIdx+1) strong weak gap
        else (endIdx, strong, weak)
    else (endIdx, strong, weak)

/-- The trailing-blank trimming loop of `find_diagram_blocks`. -/
def trimTrailingBlanks (lines : List Line) (start : Nat) : Nat → Nat → Nat
  | 0, endIdx => endIdx
  | fuel+1, endIdx =>
    if start < endIdx ∧ classifyLine (lines.getD (endIdx - 1) []) = .Blank then
      trimTrailingBlanks lines start fuel (endIdx - 1)
    else endIdx

/-- Confidence formula of `find_diagram_blocks` (f64 modelled as ℚ). -/
def blockConfidence (strong weak start endIdx : Nat) : ℚ :=
  let total := strong + weak
  if total > 0 then
    let strongFrac : ℚ := (strong : ℚ) / (total : ℚ)
    let sizeBonus : ℚ := min (((endIdx - start : Nat) : ℚ) / 10) (2/10)
    min (strongFrac * (8/10) + sizeBonus) 1
  else 0

/-- The outer scan loop of `find_diagram_blocks`. -/
def findBlocksGo (lines : List Line) (allBlocks : Bool) : Nat → Nat → List DiagramBlock
  | 0, _ => []
  | fuel+1, i =>
    if i < lines.length then
      let kind := classifyLine (lines.getD i [])
      if kind.isBoxy then
        let strong0 := if kind = .Strong then 1 else 0
        let weak0 := if kind = .Weak then 1 else 0
        let g := growBlock lines (lines.length + 1) (i+1) strong0 weak0 0
        let e := trimTrailingBlanks lines i g.1 g.1
        let conf := blockConfidence g.2.1 g.2.2 i e
        let rest := findBlocksGo lines allBlocks fuel e
        if allBlocks || conf ≥ 3/10 then ⟨i, e, conf⟩ :: rest else rest
      else findBlocksGo lines allBlocks fuel (i+1)
    else []

/-- src/main.rs `find_diagram_blocks`. -/
def findDiagramBlocks (lines : List Line) (allBlocks : Bool) : List DiagramBlock :=
  findBlocksGo lines allBlocks (lines.length + 1) 0

/-! ## Claim C7: the `None`-line lookahead window -/

/-- Dropping at an in-range index exposes the indexed element. -/
lemma line_drop_eq (lines : List Line) (n : Nat) (h : n < lines.length) :
    lines.drop n = lines.getD n [] :: lines.drop (n+1) := by
  induction lines generalizing n with
  | nil => simp at h
  | cons a t ih =>
    cases n with
    | zero => simp
    | succ m => simpa using ih m (by simpa using h)

/-- Concrete input refuting claim C7 as stated: one boxy line, three `None`
lines of prose, then another boxy line. -/
def c7Lines : List Line :=
  ["|x|".toList, "a".toList, "b".toList, "c".toList, "|y|".toList]

/-- Claim C7 counterexample: at the `None` line with index 1 (`blank_gap = 0`),
one of the three lines after it (indices 2, 3, 4 — namely `"|y|"`) is boxy, so
the claim says the `None` line is included and growing continues; but the code
looks at `lines[end..end+3]`, i.e. the `None` line itself plus only the TWO
following lines, finds no boxy line there, and stops before the `None` line:
the emitted blocks are `[0,1)` and `[4,5)`, not one block through line 4. -/
theorem C7_counterexample :
    (((c7Lines.drop 2).take 3).any (fun l => (classifyLine l).isBoxy) = true) ∧
    classifyLine (c7Lines.getD 1 []) = .None ∧
    growBlock c7Lines (c7Lines.length + 1) 1 1 0 0 = (1, 1, 0) ∧
    (findDiagramBlocks c7Lines true).map (fun b => (b.start, b.endIdx)) =
      [(0, 1), (4, 5)] := by
  refine ⟨by decide, by decide, by decide, by decide⟩

/-- Claim C7 amended: when the detector, while growing a block, meets a `None`
line at `endIdx` with `blank_gap = 0`, it includes that line and continues iff
at least one of the up-to-THREE lines starting AT the `None` line itself —
equivalently, at least one of the up-to-TWO lines after it — is boxy;
otherwise it stops before the `None` line. -/
theorem C7_none_lookahead_amended (lines : List Line) (fuel endIdx strong weak : Nat)
    (h1 : endIdx < lines.length)
    (h2 : classifyLine (lines.getD endIdx []) = .None) :
    growBlock lines (fuel+1) endIdx strong weak 0 =
      (if ((lines.drop (endIdx+1)).take 2).any (fun l => (classifyLine l).isBoxy) then
        growBlock lines fuel (endIdx+1) strong weak 0
      else (endIdx, strong, weak)) := by
  have hwin : lookaheadBoxy lines endIdx =
      ((lines.drop (endIdx+1)).take 2).any (fun l => (classifyLine l).isBoxy) := by
    unfold lookaheadBoxy
    rw [line_drop_eq lines endIdx h1]
    rw [List.take_succ_cons, List.any_cons, h2]
    simp [LineKind.isBoxy]
  rw [growBlock, if_pos h1, h2]
  simp only [hwin, decide_True, Bool.and_true]

/-- Witness instantiating `C7_none_lookahead_amended`: on `c7Lines` at the
`None` line of index 1 the window contains no boxy line and growing stops. -/
theorem C7_none_lookahead_amended_witness :
    growBlock c7Lines 5 1 1 0 0 =
      (if ((c7Lines.drop 2).take 2).any (fun l => (classifyLine l).isBoxy) then
        growBlock c7Lines 4 2 1 0 0
      else (1, 1, 0)) :=
  C7_none_lookahead_amended c7Lines 4 1 1 0 (by decide) (by decide)

/-! ## Vertical-border detection (src/main.rs `detect_vertical_border`)

The Rust function builds a `HashMap<char, usize>` of vertical-border
occurrence counts and takes `max_by_key` over its iteration order, which is
unspecified.  We model the map as an association list in first-occurrence
order and parameterise by a reordering function `ord`; an `ord` is admissible
when it permutes the count list.  Rust's `max_by_key` returns the LAST
maximal element of the iteration. -/

abbrev CountList := List (Char × Nat)

/-- Increment the count of `c` (insert with count 1 when absent). -/
def bumpCount : CountList → Char → CountList
  | [], c => [(c, 1)]
  | (d, n) :: rest, c =>
    if c = d then (d, n + 1) :: rest else (d, n) :: bumpCount rest c

/-- Occurrence counts of vertical-border characters, first-occurrence order. -/
def countsAssoc (lines : List Line) : CountList :=
  lines.foldl
    (fun acc l =>
      l.foldl (fun acc c => if isVerticalBorder c then bumpCount acc c else acc) acc)
    []

/-- One step of Rust `Iterator::max_by_key` keyed by the count: on a tie the
later element wins (Rust returns the LAST maximal element). -/
def lmStep (acc : Option (Char × Nat)) (p : Char × Nat) : Option (Char × Nat) :=
  match acc with
  | none => some p
  | some q => if p.2 ≥ q.2 then some p else some q

/-- Rust `Iterator::max_by_key` keyed by the count: the LAST maximum wins. -/
def lastMaxByCount (l : CountList) : Option (Char × Nat) :=
  l.foldl lmStep none

/-- src/main.rs `detect_vertical_border`, with `ord` standing for the
unspecified `HashMap` iteration order. -/
def detectVerticalBorder (ord : CountList → CountList) (lines : List Line) : Char :=
  ((lastMaxByCount (ord (countsAssoc lines))).map Prod.fst).getD '|'

/-- An admissible iteration order permutes the underlying count list. -/
def Admissible (ord : CountList → CountList) : Prop :=
  ∀ l, (ord l).Perm l

/-- Total vertical-border-relevant occurrences of `c` in a set of lines. -/
def vbCount (c : Char) (lines : List Line) : Nat :=
  (lines.map (fun l => l.count c)).sum

/-- The claim's tie-break: FIRST maximal element of the iteration. -/
def firstMaxByCount (l : CountList) : Option (Char × Nat) :=
  l.foldl
    (fun acc p =>
      match acc with
      | none => some p
      | some q => if p.2 > q.2 then some p else some q)
    none

/-! ### Association-list counting lemmas -/

/-- One counting step: bump the count of vertical-border characters. -/
def stepVB (acc : CountList) (c : Char) : CountList :=
  if isVerticalBorder c then bumpCount acc c else acc

/-- The nested fold of `countsAssoc` is a flat fold over the flattened lines. -/
lemma countsAssoc_eq_flatten (lines : List Line) :
    countsAssoc lines = (lines.flatten).foldl stepVB [] := by
  unfold countsAssoc stepVB
  rw [List.foldl_flatten]

/-- Count looked up in an association list (first matching entry). -/
def lookupCount (c : Char) (acc : CountList) : Nat :=
  ((acc.find? (fun p => p.1 == c)).map Prod.snd).getD 0

lemma lookupCount_nil (c : Char) : lookupCount c [] = 0 := rfl

lemma lookupCount_cons (d : Char) (n : Nat) (rest : CountList) (c : Char) :
    lookupCount c ((d, n) :: rest) =
      if d = c then n else lookupCount c rest := by
  by_cases h : d = c
  · simp [lookupCount, List.find?, h]
  · have h' : (d == c) = false := by simp [h]
    simp [lookupCount, List.find?, h', h]

lemma bumpCount_cons_ne (d : Char) (n : Nat) (rest : CountList) (c : Char)
    (h : ¬ c = d) : bumpCount ((d, n) :: rest) c = (d, n) :: bumpCount rest c := by
  simp [bumpCount, h]

lemma bumpCount_lookup_same (acc : CountList) (c : Char) :
    lookupCount c (bumpCount acc c) = lookupCount c acc + 1 := by
  induction acc with
  | nil => simp [bumpCount, lookupCount_cons, lookupCount_nil]
  | cons q rest ih =>
    obtain ⟨d, n⟩ := q
    by_cases h : c = d
    · subst h
      simp [bumpCount, lookupCount_cons]
    · rw [bumpCount_cons_ne d n rest c h, lookupCount_cons, lookupCount_cons,
        if_neg (fun he => h he.symm), if_neg (fun he => h he.symm)]
      exact ih

lemma bumpCount_lookup_ne (acc : CountList) (c x : Char) (h : x ≠ c) :
    lookupCount x (bumpCount acc c) = lookupCount x acc := by
  induction acc with
  | nil =>
    rw [show bumpCount [] c = [(c, 1)] from rfl, lookupCount_cons,
      if_neg (fun he => h he.symm)]
  | cons q rest ih =>
    obtain ⟨d, n⟩ := q
    by_cases hq : c = d
    · subst hq
      rw [show bumpCount ((c, n) :: rest) c = (c, n + 1) :: rest from by simp [bumpCount]]
      rw [lookupCount_cons, lookupCount_cons,
        if_neg (fun he => h he.symm), if_neg (fun he => h he.symm)]
    · rw [bumpCount_cons_ne d n rest c hq, lookupCount_cons, lookupCount_cons]
      by_cases hd : d = x
      · rw [if_pos hd, if_pos hd]
      · rw [if_neg hd, if_neg hd]
        exact ih

lemma bumpCount_inv {P : Char → Prop} {c : Char} (hc : P c) :
    ∀ {acc : CountList}, (∀ p ∈ acc, P p.1 ∧ 0 < p.2) →
      ∀ p ∈ bumpCount acc c, P p.1 ∧ 0 < p.2 := by
  intro acc
  induction acc with
  | nil =>
    intro _ p hp
    simp only [bumpCount, List.mem_singleton] at hp
    subst hp
    exact ⟨hc, Nat.one_pos⟩
  | cons q rest ih =>
    intro h p hp
    obtain ⟨d, n⟩ := q
    by_cases hq : c = d
    · rw [show bumpCount ((d, n) :: rest) c = (d, n + 1) :: rest from by
        simp [bumpCount, hq]] at hp
      rcases List.mem_cons.mp hp with hp1 | hp2
      · subst hp1
        exact ⟨(h (d, n) (List.mem_cons_self _ _)).1, Nat.succ_pos _⟩
      · exact h p (List.mem_cons_of_mem _ hp2)
    · rw [bumpCount_cons_ne d n rest c hq] at hp
      rcases List.mem_cons.mp hp with hp1 | hp2
      · subst hp1
        exact h (d, n) (List.mem_cons_self _ _)
      · exact ih (fun r hr => h r (List.mem_cons_of_mem _ hr)) p hp2

lemma bumpCount_keys (acc : CountList) (c : Char) :
    (bumpCount acc c).map Prod.fst =
      if c ∈ acc.map Prod.fst then acc.map Prod.fst else acc.map Prod.fst ++ [c] := by
  induction acc with
  | nil => simp [bumpCount]
  | cons q rest ih =>
    obtain ⟨d, n⟩ := q
    by_cases hq : c = d
    · simp [bumpCount, hq]
    · rw [bumpCount_cons_ne d n rest c hq]
      simp only [List.map_cons, ih, List.mem_cons]
      by_cases hm : c ∈ rest.map Prod.fst
      · simp [hq, hm]
      · simp [hq, hm]

lemma bumpCount_nodup {acc : CountList} {c : Char}
    (h : (acc.map Prod.fst).Nodup) : ((bumpCount acc c).map Prod.fst).Nodup := by
  rw [bumpCount_keys]
  by_cases hm : c ∈ acc.map Prod.fst
  · rw [if_pos hm]; exact h
  · rw [if_neg hm]
    refine List.nodup_append.mpr ⟨h, List.nodup_singleton c, ?_⟩
    intro x hx hxc
    rw [List.mem_singleton] at hxc
    exact hm (hxc ▸ hx)

lemma lookup_of_mem_nodup :
    ∀ {acc : CountList}, (acc.map Prod.fst).Nodup →
      ∀ {p : Char × Nat}, p ∈ acc → lookupCount p.1 acc = p.2 := by
  intro acc
  induction acc with
  | nil => intro _ p hp; simp at hp
  | cons q rest ih =>
    intro hd p hp
    obtain ⟨d, n⟩ := q
    rw [List.map_cons] at hd
    have hd1 : d ∉ rest.map Prod.fst := (List.nodup_cons.mp hd).1
    have hd2 : (rest.map Prod.fst).Nodup := (List.nodup_cons.mp hd).2
    rcases List.mem_cons.mp hp with hp1 | hp2
    · subst hp1
      simp [lookupCount_cons]
    · have hne : d ≠ p.1 := by
        intro he
        exact hd1 (he ▸ List.mem_map_of_mem Prod.fst hp2)
      rw [lookupCount_cons, if_neg hne]
      exact ih hd2 hp2

/-! ### Counting over the whole block, and the maximum lemmas -/

lemma count_flatten' (c : Char) (ls : List Line) :
    (ls.flatten).count c = (ls.map (fun l => l.count c)).sum := by
  induction ls with
  | nil => simp
  | cons a t ih => simp [List.count_append, ih]

lemma stepVB_of_vb {d : Char} (hd : isVerticalBorder d = true) (acc : CountList) :
    stepVB acc d = bumpCount acc d := by simp [stepVB, hd]

lemma stepVB_of_not_vb {d : Char} (hd : ¬ isVerticalBorder d = true) (acc : CountList) :
    stepVB acc d = acc := by simp [stepVB, hd]

lemma foldVB_lookup (cs : List Char) :
    ∀ (acc : CountList) (c : Char),
      lookupCount c (cs.foldl stepVB acc) =
        lookupCount c acc + (if isVerticalBorder c then cs.count c else 0) := by
  induction cs with
  | nil => intro acc c; simp
  | cons d cs' ih =>
    intro acc c
    rw [List.foldl_cons, ih]
    by_cases hc : isVerticalBorder c
    · rw [if_pos hc, if_pos hc, List.count_cons]
      by_cases hdc : d = c
      · subst hdc
        rw [stepVB_of_vb hc, bumpCount_lookup_same]
        simp
        omega
      · have h1 : (d == c) = false := by simp [hdc]
        rw [h1]
        by_cases hd : isVerticalBorder d
        · rw [stepVB_of_vb hd, bumpCount_lookup_ne acc d c (fun he => hdc he.symm)]
          simp
        · rw [stepVB_of_not_vb hd]
          simp
    · rw [if_neg hc, if_neg hc]
      by_cases hd : isVerticalBorder d
      · have hdc : c ≠ d := fun he => hc (he ▸ hd)
        rw [stepVB_of_vb hd, bumpCount_lookup_ne acc d c hdc]
      · rw [stepVB_of_not_vb hd]

lemma foldVB_inv (cs : List Char) :
    ∀ acc : CountList, (∀ p ∈ acc, isVerticalBorder p.1 = true ∧ 0 < p.2) →
      ∀ p ∈ cs.foldl stepVB acc, isVerticalBorder p.1 = true ∧ 0 < p.2 := by
  induction cs with
  | nil => intro acc h; simpa using h
  | cons d cs' ih =>
    intro acc h
    rw [List.foldl_cons]
    apply ih
    by_cases hd : isVerticalBorder d
    · rw [stepVB_of_vb hd]
      exact @bumpCount_inv (fun c => isVerticalBorder c = true) d hd acc h
    · rw [stepVB_of_not_vb hd]
      exact h

lemma foldVB_nodup (cs : List Char) :
    ∀ acc : CountList, ((acc.map Prod.fst)).Nodup →
      (((cs.foldl stepVB acc).map Prod.fst)).Nodup := by
  induction cs with
  | nil => intro acc h; simpa using h
  | cons d cs' ih =>
    intro acc h
    rw [List.foldl_cons]
    apply ih
    by_cases hd : isVerticalBorder d
    · rw [stepVB_of_vb hd]; exact bumpCount_nodup h
    · rw [stepVB_of_not_vb hd]; exact h

/-- Every entry of `countsAssoc` is a vertical-border character with its exact
occurrence count in the lines, and that count is positive. -/
lemma countsAssoc_mem_spec (lines : List Line) :
    ∀ p ∈ countsAssoc lines,
      isVerticalBorder p.1 = true ∧ p.2 = vbCount p.1 lines ∧ 0 < p.2 := by
  intro p hp
  rw [countsAssoc_eq_flatten] at hp
  have h1 := foldVB_inv (lines.flatten) [] (by simp) p hp
  have hnd : (((lines.flatten).foldl stepVB []).map Prod.fst).Nodup :=
    foldVB_nodup _ [] (by simp)
  have h2 : lookupCount p.1 ((lines.flatten).foldl stepVB []) = p.2 :=
    lookup_of_mem_nodup hnd hp
  have h3 := foldVB_lookup (lines.flatten) [] p.1
  rw [h2, lookupCount_nil, if_pos h1.1] at h3
  refine ⟨h1.1, ?_, h1.2⟩
  unfold vbCount
  rw [← count_flatten']
  omega

/-- Every vertical-border character occurring in the lines has an entry. -/
lemma countsAssoc_complete (lines : List Line) (c : Char)
    (hv : isVerticalBorder c = true) (hpos : 0 < vbCount c lines) :
    ∃ p ∈ countsAssoc lines, p.1 = c := by
  have h3 := foldVB_lookup (lines.flatten) [] c
  rw [lookupCount_nil, if_pos hv] at h3
  have hcount : (lines.flatten).count c = vbCount c lines := by
    rw [count_flatten']; rfl
  rw [← countsAssoc_eq_flatten] at h3
  have hlk : 0 < lookupCount c (countsAssoc lines) := by
    rw [h3, hcount]; omega
  rcases hfind : (countsAssoc lines).find? (fun p => p.1 == c) with _ | q
  · rw [lookupCount, hfind] at hlk
    simp at hlk
  · refine ⟨q, List.mem_of_find?_eq_some hfind, ?_⟩
    have := List.find?_some hfind
    simpa using this

lemma lastMaxByCount_go (l : CountList) :
    ∀ q : Char × Nat,
      ∃ p, l.foldl lmStep (some q) = some p ∧
        (p = q ∨ p ∈ l) ∧ q.2 ≤ p.2 ∧ ∀ r ∈ l, r.2 ≤ p.2 := by
  induction l with
  | nil => intro q; exact ⟨q, rfl, Or.inl rfl, le_refl _, by simp⟩
  | cons a t ih =>
    intro q
    rw [List.foldl_cons]
    by_cases h : a.2 ≥ q.2
    · rw [show lmStep (some q) a = some a from by simp [lmStep, h]]
      obtain ⟨p, h1, h2, h3, h4⟩ := ih a
      refine ⟨p, h1, ?_, le_trans h h3, ?_⟩
      · rcases h2 with rfl | h2
        · exact Or.inr (List.mem_cons_self _ _)
        · exact Or.inr (List.mem_cons_of_mem _ h2)
      · intro r hr
        rcases List.mem_cons.mp hr with rfl | hr'
        · exact h3
        · exact h4 r hr'
    · rw [show lmStep (some q) a = some q from by simp [lmStep, h]]
      obtain ⟨p, h1, h2, h3, h4⟩ := ih q
      refine ⟨p, h1, ?_, h3, ?_⟩
      · rcases h2 with rfl | h2
        · exact Or.inl rfl
        · exact Or.inr (List.mem_cons_of_mem _ h2)
      · intro r hr
        rcases List.mem_cons.mp hr with rfl | hr'
        · exact le_trans (le_of_lt (Nat.lt_of_not_le h)) h3
        · exact h4 r hr'

lemma lastMaxByCount_spec (l : CountList) (h : l ≠ []) :
    ∃ p, lastMaxByCount l = some p ∧ p ∈ l ∧ ∀ q ∈ l, q.2 ≤ p.2 := by
  cases l with
  | nil => exact absurd rfl h
  | cons a t =>
    unfold lastMaxByCount
    rw [List.foldl_cons, show lmStep none a = some a from rfl]
    obtain ⟨p, h1, h2, h3, h4⟩ := lastMaxByCount_go t a
    refine ⟨p, h1, ?_, ?_⟩
    · rcases h2 with rfl | h2
      · exact List.mem_cons_self _ _
      · exact List.mem_cons_of_mem _ h2
    · intro q hq
      rcases List.mem_cons.mp hq with rfl | hq'
      · exact h3
      · exact h4 q hq'

/-- Full characterisation of `detect_vertical_border` under any admissible
iteration order: fallback `'|'` when no vertical-border character occurs,
otherwise some vertical-border character of maximal occurrence count. -/
lemma detectVerticalBorder_spec (ord : CountList → CountList) (lines : List Line)
    (hord : (ord (countsAssoc lines)).Perm (countsAssoc lines)) :
    (countsAssoc lines = [] → detectVerticalBorder ord lines = '|') ∧
    (countsAssoc lines ≠ [] →
      ∃ c, detectVerticalBorder ord lines = c ∧ isVerticalBorder c = true ∧
        0 < vbCount c lines ∧
        ∀ d, isVerticalBorder d = true → vbCount d lines ≤ vbCount c lines) := by
  constructor
  · intro he
    have h1 : (ord (countsAssoc lines)).Perm ([] : CountList) := by
      rw [← he]
      exact hord
    unfold detectVerticalBorder
    rw [h1.eq_nil]
    rfl
  · intro hne
    have hne' : ord (countsAssoc lines) ≠ [] := by
      intro h0
      apply hne
      have h1 : (countsAssoc lines).Perm ([] : CountList) := by
        rw [← h0]
        exact hord.symm
      exact h1.eq_nil
    obtain ⟨p, h1, h2, h3⟩ := lastMaxByCount_spec _ hne'
    have hpmem : p ∈ countsAssoc lines := hord.mem_iff.mp h2
    obtain ⟨hv, hcnt, hpos⟩ := countsAssoc_mem_spec lines p hpmem
    refine ⟨p.1, ?_, hv, hcnt ▸ hpos, ?_⟩
    · unfold detectVerticalBorder
      rw [h1]
      rfl
    · intro d hd
      by_cases hz : 0 < vbCount d lines
      · obtain ⟨q, hqmem, hq1⟩ := countsAssoc_complete lines d hd hz
        obtain ⟨_, hqcnt, _⟩ := countsAssoc_mem_spec lines q hqmem
        have : q.2 ≤ p.2 := h3 q (hord.mem_iff.mpr hqmem)
        rw [← hq1, ← hqcnt, ← hcnt]
        exact this
      · rw [← hcnt]
        omega

/-- The detected border character is always a vertical-border character
(the fallback `'|'` included), under any admissible order. -/
lemma detectVerticalBorder_vertical (ord : CountList → CountList) (lines : List Line)
    (hord : (ord (countsAssoc lines)).Perm (countsAssoc lines)) :
    isVerticalBorder (detectVerticalBorder ord lines) = true := by
  by_cases he : countsAssoc lines = []
  · rw [(detectVerticalBorder_spec ord lines hord).1 he]
    decide
  · obtain ⟨c, hc, hv, _, _⟩ := (detectVerticalBorder_spec ord lines hord).2 he
    rw [hc]
    exact hv

/-! ## Claim C8 theorems -/

/-- Concrete input for the C8 counterexample: a single line holding one `'|'`
followed by one `'│'`, so both vertical-border characters occur once. -/
def c8Lines : List Line := [['|', '│']]

/-- Claim C8 counterexample: on `c8Lines` the identity order (admissible:
it permutes the count list) makes `detect_vertical_border` return `'│'`,
the LAST maximal entry, although the first-occurring maximal vertical-border
code point of the block is `'|'`: ties are not broken by first occurrence. -/
theorem C8_counterexample :
    (id (countsAssoc c8Lines)).Perm (countsAssoc c8Lines) ∧
    countsAssoc c8Lines = [('|', 1), ('│', 1)] ∧
    detectVerticalBorder id c8Lines = '│' ∧
    (firstMaxByCount (countsAssoc c8Lines)).map Prod.fst = some '|' ∧
    ('│' : Char) ≠ '|' :=
  ⟨List.Perm.refl _, by decide, by decide, by decide, by decide⟩

/-- Claim C8 amended: in every iteration over a block, the chosen
`border_char` is SOME vertical-border code point of maximal occurrence count
in the block's lines (which one among tied maxima depends on the unspecified
`HashMap` iteration order), and is the ASCII pipe `'|'` when no
vertical-border code point occurs. -/
theorem C8_border_char_amended (ord : CountList → CountList) (lines : List Line)
    (hord : (ord (countsAssoc lines)).Perm (countsAssoc lines)) :
    (countsAssoc lines = [] → detectVerticalBorder ord lines = '|') ∧
    (countsAssoc lines ≠ [] →
      ∃ c, detectVerticalBorder ord lines = c ∧ isVerticalBorder c = true ∧
        0 < vbCount c lines ∧
        ∀ d, isVerticalBorder d = true → vbCount d lines ≤ vbCount c lines) :=
  detectVerticalBorder_spec ord lines hord

/-- Witness for `C8_border_char_amended` at the identity order on `c8Lines`. -/
theorem C8_border_char_amended_witness :
    ((id (countsAssoc c8Lines)).Perm (countsAssoc c8Lines)) ∧
    ((countsAssoc c8Lines = [] → detectVerticalBorder id c8Lines = '|') ∧
      (countsAssoc c8Lines ≠ [] →
        ∃ c, detectVerticalBorder id c8Lines = c ∧ isVerticalBorder c = true ∧
          0 < vbCount c c8Lines ∧
          ∀ d, isVerticalBorder d = true → vbCount d c8Lines ≤ vbCount c c8Lines)) :=
  ⟨List.Perm.refl _, C8_border_char_amended id c8Lines (List.Perm.refl _)⟩

/-! ## Line-range parsing (src/main.rs `LineRange`, `parse_single_range`,
`parse_line_ranges`, `merge_ranges`, and the `lines` field of `Config::from`) -/

/-- `usize::MAX` on 64-bit targets; `end = USIZE_MAX` encodes "to end of file". -/
def USIZE_MAX : Nat := 2 ^ 64 - 1

/-- Digit-string value, `none` when empty or containing a non-digit. -/
def parseDigits (cs : List Char) : Option Nat :=
  if cs.isEmpty then none
  else if cs.all (fun c => c.isDigit) then
    some (cs.foldl (fun n c => n * 10 + (c.toNat - '0'.toNat)) 0)
  else none

/-- Rust `str::parse::<usize>`: an optional leading `'+'`, then one or more
ASCII digits, rejecting values above `usize::MAX`. -/
def rustParseUsize (s : List Char) : Option Nat :=
  let digits := match s with
    | '+' :: rest => rest
    | _ => s
  match parseDigits digits with
  | none => none
  | some n => if n ≤ USIZE_MAX then some n else none

/-- A 1-indexed inclusive line range; `endIdx` is `end` in the source
(a reserved word in Lean), with `USIZE_MAX` meaning "to end of file". -/
structure LineRange where
  start : Nat
  endIdx : Nat
deriving DecidableEq, Repr

/-- Position of the first `'-'` (Rust `str::find('-')`). -/
def firstDash (t : List Char) : Option Nat := t.findIdx? (fun c => c == '-')

/-- src/main.rs `parse_single_range` (`Result<_, String>` modelled as `Option`,
errors collapsed to `none`). -/
def parseSingleRange (s : List Char) : Option LineRange :=
  let t := trim s
  if t.isEmpty then none
  else
    match firstDash t with
    | some dashPos =>
      let sTok := t.take dashPos
      let eTok := t.drop (dashPos + 1)
      match (if sTok.isEmpty then some 1 else rustParseUsize sTok) with
      | none => none
      | some start =>
        match (if eTok.isEmpty then some USIZE_MAX else rustParseUsize eTok) with
        | none => none
        | some e =>
          if start = 0 then none
          else if start > e ∧ e ≠ USIZE_MAX then none
          else some ⟨start, e⟩
    | none =>
      match rustParseUsize t with
      | none => none
      | some n => if n = 0 then none else some ⟨n, n⟩

/-- src/main.rs `merge_ranges`: sort by start, then merge overlapping or
adjacent ranges (`saturating_add(1)` modelled with `USIZE_MAX` saturation). -/
def mergeRanges (ranges : List LineRange) : List LineRange :=
  match ranges.mergeSort (fun a b => a.start ≤ b.start) with
  | [] => []
  | first :: rest =>
    let acc := rest.foldl
      (fun (acc : List LineRange × LineRange) r =>
        if r.start ≤ min (acc.2.endIdx + 1) USIZE_MAX then
          (acc.1, ⟨acc.2.start, max acc.2.endIdx r.endIdx⟩)
        else (acc.1 ++ [acc.2], r))
      ([], first)
    acc.1 ++ [acc.2]

/-- The part loop of src/main.rs `parse_line_ranges`: trim each
comma-separated part, skip empty parts, fail if any part fails. -/
def parseRangeParts : List (List Char) → Option (List LineRange)
  | [] => some []
  | p :: rest =>
    let p := trim p
    if p.isEmpty then parseRangeParts rest
    else
      match parseSingleRange p with
      | none => none
      | some r => (parseRangeParts rest).map (fun rs => r :: rs)

/-- src/main.rs `parse_line_ranges`. -/
def parseLineRanges (s : List Char) : Option (List LineRange) :=
  match parseRangeParts (s.splitOn ',') with
  | none => none
  | some rs => if rs.isEmpty then none else some (mergeRanges rs)

/-- The `lines` field computation in `Config::from` (src/main.rs:486):
`args.lines.as_ref().and_then(|s| parse_line_ranges(s).ok())`.
A malformed specification is silently discarded into `none` ("no filter"). -/
def configLinesFrom (argLines : Option (List Char)) : Option (List LineRange) :=
  argLines.bind (fun s => parseLineRanges s)

/-! ## Claim C9: failure conditions of a single range item -/

/-- The tokens a range item is made of: the non-empty sides of the first dash,
or the whole (trimmed) item when it has no dash. -/
def specTokens (t : List Char) : List (List Char) :=
  match firstDash t with
  | some i => [t.take i, t.drop (i+1)].filter (fun tok => !tok.isEmpty)
  | none => [t]

/-- The start value of a range item (`1` when the start side is empty). -/
def startVal (t : List Char) : Option Nat :=
  match firstDash t with
  | some i => if (t.take i).isEmpty then some 1 else rustParseUsize (t.take i)
  | none => rustParseUsize t

/-- The end value of a range item (`USIZE_MAX` when the end side is empty;
equal to the start value when there is no dash). -/
def endVal (t : List Char) : Option Nat :=
  match firstDash t with
  | some i => if (t.drop (i+1)).isEmpty then some USIZE_MAX else rustParseUsize (t.drop (i+1))
  | none => rustParseUsize t

/-- The claim's failure conditions, stated in the spec's vocabulary: the item
is empty; some token is not an integer; some token is the non-positive
integer 0 (`usize` admits no other non-positive value); or the end is finite
(not the `usize::MAX` "to end of file" sentinel) and smaller than the start. -/
def specRangeFails (s : List Char) : Prop :=
  trim s = [] ∨
  (∃ tok ∈ specTokens (trim s), rustParseUsize tok = none) ∨
  (∃ tok ∈ specTokens (trim s), rustParseUsize tok = some 0) ∨
  (∃ a b, startVal (trim s) = some a ∧ endVal (trim s) = some b ∧
    b ≠ USIZE_MAX ∧ b < a)

lemma USIZE_MAX_pos : 0 < USIZE_MAX := by norm_num [USIZE_MAX]

/-- Claim C9: (a) `parse_single_range` fails exactly on the spec's failure
conditions — empty item, non-integer token, the non-positive integer 0, or a
finite end smaller than the start; (b) BUT a malformed specification does
not surface as an `ArgumentError`: `Config::from` (src/main.rs:486) silently
discards the parse error (`parse_line_ranges(s).ok()`), `validate_args`
never checks it, and correction proceeds unrestricted — e.g. `"50-10"` fails
to parse yet yields the no-filter configuration `none`. -/
theorem C9_range_failure_characterisation :
    (∀ s : List Char, parseSingleRange s = none ↔ specRangeFails s) ∧
    parseLineRanges "50-10".toList = none ∧
    configLinesFrom (some "50-10".toList) = none := by
  refine ⟨?_, by decide, by decide⟩
  intro s
  unfold parseSingleRange
  by_cases ht : (trim s).isEmpty
  · rw [if_pos ht]
    have h0 : trim s = [] := List.isEmpty_iff.mp ht
    exact iff_of_true rfl (Or.inl h0)
  · rw [if_neg ht]
    have h0 : ¬ trim s = [] := fun h => ht (List.isEmpty_iff.mpr h)
    unfold specRangeFails
    rcases hd : firstDash (trim s) with _ | i
    · -- no dash: a single token, start = end
      have hTok : specTokens (trim s) = [trim s] := by simp [specTokens, hd]
      have hSV : startVal (trim s) = rustParseUsize (trim s) := by simp [startVal, hd]
      have hEV : endVal (trim s) = rustParseUsize (trim s) := by simp [endVal, hd]
      rw [hTok, hSV, hEV]
      rcases hp : rustParseUsize (trim s) with _ | n
      · exact iff_of_true rfl (Or.inr (Or.inl ⟨trim s, List.mem_singleton_self _, hp⟩))
      · simp only []
        by_cases hn : n = 0
        · subst hn
          rw [if_pos rfl]
          exact iff_of_true rfl (Or.inr (Or.inr (Or.inl ⟨trim s, List.mem_singleton_self _, hp⟩)))
        · rw [if_neg hn]
          refine iff_of_false (by simp) ?_
          rintro (h | ⟨tok, hm, hp2⟩ | ⟨tok, hm, hp2⟩ | ⟨a, b, ha, hb, _, hba⟩)
          · exact h0 h
          · rw [List.mem_singleton] at hm
            rw [hm, hp] at hp2
            exact Option.noConfusion hp2
          · rw [List.mem_singleton] at hm
            rw [hm, hp] at hp2
            have : n = 0 := by injection hp2
            exact hn this
          · have : n = a := by injection ha
            have hbn : n = b := by injection hb
            omega
    · -- dash at position i
      have hTok : specTokens (trim s) =
          [(trim s).take i, (trim s).drop (i+1)].filter (fun tok => !tok.isEmpty) := by
        simp [specTokens, hd]
      have hSV : startVal (trim s) =
          (if ((trim s).take i).isEmpty then some 1 else rustParseUsize ((trim s).take i)) := by
        simp [startVal, hd]
      have hEV : endVal (trim s) =
          (if ((trim s).drop (i+1)).isEmpty then some USIZE_MAX
           else rustParseUsize ((trim s).drop (i+1))) := by
        simp [endVal, hd]
      rw [hTok, hSV, hEV]
      simp only []
      by_cases hse : ((trim s).take i).isEmpty
      · rw [if_pos hse]
        simp only []
        have hse' : (trim s).take i = [] := List.isEmpty_iff.mp hse
        by_cases hee : ((trim s).drop (i+1)).isEmpty
        · rw [if_pos hee]
          simp only []
          have hee' : (trim s).drop (i+1) = [] := List.isEmpty_iff.mp hee
          refine iff_of_false ?_ ?_
          · simp
          · rintro (h | ⟨tok, hm, hp2⟩ | ⟨tok, hm, hp2⟩ | ⟨a, b, ha, hb, hbM, hba⟩)
            · exact h0 h
            · simp [hse', hee'] at hm
            · simp [hse', hee'] at hm
            · have : USIZE_MAX = b := by injection hb
              exact hbM this.symm
        · rw [if_neg hee]
          rcases hpe : rustParseUsize ((trim s).drop (i+1)) with _ | e
          · refine iff_of_true rfl (Or.inr (Or.inl ⟨(trim s).drop (i+1), ?_, hpe⟩))
            simp [hse', hee]
          · simp only []
            by_cases he0 : e = 0
            · subst he0
              rw [if_neg (one_ne_zero), if_pos ⟨Nat.one_pos, USIZE_MAX_pos.ne⟩]
              refine iff_of_true rfl (Or.inr (Or.inr (Or.inl ⟨(trim s).drop (i+1), ?_, hpe⟩)))
              simp [hse', hee]
            · rw [if_neg (one_ne_zero),
                if_neg (fun hc => absurd hc.1 (by omega : ¬ 1 > e))]
              refine iff_of_false (by simp) ?_
              rintro (h | ⟨tok, hm, hp2⟩ | ⟨tok, hm, hp2⟩ | ⟨a, b, ha, hb, hbM, hba⟩)
              · exact h0 h
              · simp [hse', hee] at hm
                rw [hm, hpe] at hp2
                exact Option.noConfusion hp2
              · simp [hse', hee] at hm
                rw [hm, hpe] at hp2
                have : e = 0 := by injection hp2
                exact he0 this
              · have ha1 : 1 = a := by injection ha
                have hbe : e = b := by injection hb
                omega
      · rw [if_neg hse]
        rcases hps : rustParseUsize ((trim s).take i) with _ | a
        · refine iff_of_true rfl (Or.inr (Or.inl ⟨(trim s).take i, ?_, hps⟩))
          simp [hse]
        · simp only []
          by_cases hee : ((trim s).drop (i+1)).isEmpty
          · rw [if_pos hee]
            simp only []
            by_cases ha0 : a = 0
            · subst ha0
              rw [if_pos rfl]
              refine iff_of_true rfl (Or.inr (Or.inr (Or.inl ⟨(trim s).take i, ?_, hps⟩)))
              simp [hse]
            · rw [if_neg ha0, if_neg (fun hc => absurd hc.2 (by simp : ¬ USIZE_MAX ≠ USIZE_MAX))]
              refine iff_of_false (by simp) ?_
              rintro (h | ⟨tok, hm, hp2⟩ | ⟨tok, hm, hp2⟩ | ⟨x, b, hx, hb, hbM, hba⟩)
              · exact h0 h
              · simp [hse, List.isEmpty_iff.mp hee] at hm
                rw [hm, hps] at hp2
                exact Option.noConfusion hp2
              · simp [hse, List.isEmpty_iff.mp hee] at hm
                rw [hm, hps] at hp2
                have : a = 0 := by injection hp2
                exact ha0 this
              · have : USIZE_MAX = b := by injection hb
                exact hbM this.symm
          · rw [if_neg hee]
            rcases hpe : rustParseUsize ((trim s).drop (i+1)) with _ | b
            · refine iff_of_true rfl (Or.inr (Or.inl ⟨(trim s).drop (i+1), ?_, hpe⟩))
              simp [hee]
            · simp only []
              by_cases ha0 : a = 0
              · subst ha0
                rw [if_pos rfl]
                refine iff_of_true rfl (Or.inr (Or.inr (Or.inl ⟨(trim s).take i, ?_, hps⟩)))
                simp [hse]
              · rw [if_neg ha0]
                by_cases hcond : a > b ∧ b ≠ USIZE_MAX
                · rw [if_pos hcond]
                  exact iff_of_true rfl
                    (Or.inr (Or.inr (Or.inr ⟨a, b, rfl, rfl, hcond.2, hcond.1⟩)))
                · rw [if_neg hcond]
                  refine iff_of_false (by simp) ?_
                  rintro (h | ⟨tok, hm, hp2⟩ | ⟨tok, hm, hp2⟩ | ⟨x, y, hx, hy, hyM, hyx⟩)
                  · exact h0 h
                  · simp [hse, hee] at hm
                    rcases hm with hm | hm
                    · rw [hm, hps] at hp2
                      exact Option.noConfusion hp2
                    · rw [hm, hpe] at hp2
                      exact Option.noConfusion hp2
                  · simp [hse, hee] at hm
                    rcases hm with hm | hm
                    · rw [hm, hps] at hp2
                      have : a = 0 := by injection hp2
                      exact ha0 this
                    · rw [hm, hpe] at hp2
                      have hb0 : b = 0 := by injection hp2
                      exact hcond ⟨by omega, by subst hb0; exact USIZE_MAX_pos.ne⟩
                  · have hxa : a = x := by injection hx
                    have hyb : b = y := by injection hy
                    exact hcond ⟨by omega, by rw [hyb]; exact hyM⟩

/-! ## Configuration, statistics, quick scan, tab expansion
(src/main.rs `Preset`, `Config`, `Stats`, `quick_scan_for_diagrams`,
`expand_tabs`).  Only the core-relevant `Config` fields are modelled; the
CLI-only fields (recursive, glob, color, watch, …) never reach the
correction pipeline.  `Stats.elapsed` (wall-clock time) is not modelled. -/

inductive Preset where
  | Strict
  | Normal
  | Aggressive
  | Relaxed
deriving DecidableEq, Repr

/-- src/main.rs `Preset::min_score`. -/
def Preset.minScore : Preset → ℚ
  | .Strict => 8/10
  | .Normal => 5/10
  | .Aggressive => 3/10
  | .Relaxed => 1/10

structure Config where
  maxIters : Nat
  minScore : ℚ
  preset : Option Preset
  tabWidth : Nat
  allBlocks : Bool
  lines : Option (List LineRange)

/-- src/main.rs `Config::effective_min_score`. -/
def Config.effectiveMinScore (cfg : Config) : ℚ :=
  match cfg.preset with
  | some p => p.minScore
  | none => cfg.minScore

structure Stats where
  blocksFound : Nat
  blocksModified : Nat
  blocksSkipped : Nat
  totalRevisions : Nat
  revisionsSkipped : Nat
  totalLines : Nat
deriving DecidableEq, Repr

structure QuickScanResult where
  linesScanned : Nat
  linesWithBoxChars : Nat
  scanRatio : ℚ
  likelyHasDiagrams : Bool
deriving DecidableEq, Repr

/-- src/main.rs `quick_scan_for_diagrams` (threshold 0.01, limit 1000). -/
def quickScanForDiagrams (lines : List Line) : QuickScanResult :=
  let scanned := lines.take 1000
  let linesScanned := scanned.length
  let hits := scanned.countP (fun l => l.any isBoxChar)
  let ratio : ℚ := if linesScanned > 0 then (hits : ℚ) / (linesScanned : ℚ) else 0
  { linesScanned := linesScanned
    linesWithBoxChars := hits
    scanRatio := ratio
    likelyHasDiagrams := decide (ratio ≥ 1/100) }

/-- src/main.rs `expand_tabs` column-tracking loop. -/
def expandTabsGo (tw : Nat) : List Char → Nat → List Char
  | [], _ => []
  | c :: rest, col =>
    if c = '\t' then
      let spaces := tw - col % tw
      List.replicate spaces ' ' ++ expandTabsGo tw rest (col + spaces)
    else c :: expandTabsGo tw rest (col + charWidth c)

/-- src/main.rs `expand_tabs`. -/
def expandTabs (tw : Nat) (l : Line) : Line := expandTabsGo tw l 0

/-! ## Revisions (src/main.rs `Revision`) -/

inductive Revision where
  | padBeforeSuffixBorder (lineIdx spacesToAdd targetColumn : Nat)
  | addSuffixBorder (lineIdx : Nat) (borderChar : Char) (targetColumn : Nat)
deriving DecidableEq, Repr

def Revision.lineIdx : Revision → Nat
  | .padBeforeSuffixBorder i _ _ => i
  | .addSuffixBorder i _ _ => i

/-- src/main.rs `Revision::score` (f64 modelled as ℚ). -/
def Revision.score (rev : Revision) (analyzed : List AnalyzedLine) (blockStart : Nat) : ℚ :=
  match rev with
  | .padBeforeSuffixBorder i spacesToAdd _ =>
    let line := analyzed.getD (i - blockStart) (analyzeLine [])
    let adjustmentPenalty := min ((spacesToAdd : ℚ) / 10) (5/10)
    let strengthBonus : ℚ := if line.kind = .Strong then 2/10 else 0
    8/10 - adjustmentPenalty + strengthBonus
  | .addSuffixBorder i _ _ =>
    let line := analyzed.getD (i - blockStart) (analyzeLine [])
    let strengthBonus : ℚ := if line.kind = .Strong then 2/10 else 1/10
    5/10 + strengthBonus

/-- src/main.rs `Revision::apply` (`lines.set` is a no-op out of range, where
Rust would panic; all generated revisions index in range). -/
def Revision.apply (rev : Revision) (lines : List Line) : List Line :=
  match rev with
  | .padBeforeSuffixBorder idx spacesToAdd _ =>
    let line := lines.getD idx []
    let trimmed := trimEnd line
    match trimmed.getLast? with
    | some lastChar =>
      if isBorderChar lastChar then
        lines.set idx (trimmed.dropLast ++ List.replicate spacesToAdd ' ' ++ [lastChar])
      else lines
    | none => lines
  | .addSuffixBorder idx borderChar targetColumn =>
    let line := lines.getD idx []
    let trimmed := trimEnd line
    let padding := targetColumn - visualWidth trimmed
    lines.set idx (trimmed ++ List.replicate padding ' ' ++ [borderChar])

/-! ## Block correction (src/main.rs `correct_block`) -/

/-- Maximum of a list of naturals (`Iterator::max`). -/
def listMaxNat : List Nat → Option Nat
  | [] => none
  | a :: t =>
    match listMaxNat t with
    | none => some a
    | some m => some (max a m)

/-- The per-iteration target column: max suffix-border column of the block. -/
def targetColumnOf (analyzed : List AnalyzedLine) : Option Nat :=
  listMaxNat (analyzed.filterMap (fun a => a.suffixBorder.map (fun b => b.column)))

/-- The block's line slice `lines[block.start..block.end]`. -/
def blockSlice (lines : List Line) (b : DiagramBlock) : List Line :=
  (lines.drop b.start).take (b.endIdx - b.start)

/-- The revision-generation loop of `correct_block` (`for (i, analyzed_line)
in analyzed.iter().enumerate()`), with `i` made an explicit argument. -/
def genRevsAux (blockStart : Nat) (borderChar : Char) (target : Nat) :
    List AnalyzedLine → Nat → List Revision
  | [], _ => []
  | a :: rest, i =>
    let globalIdx := blockStart + i
    match a.suffixBorder with
    | some border =>
      if border.column < target then
        Revision.padBeforeSuffixBorder globalIdx (target - border.column) target ::
          genRevsAux blockStart borderChar target rest (i+1)
      else genRevsAux blockStart borderChar target rest (i+1)
    | none =>
      if a.kind.isBoxy then
        Revision.addSuffixBorder globalIdx borderChar target ::
          genRevsAux blockStart borderChar target rest (i+1)
      else genRevsAux blockStart borderChar target rest (i+1)

/-- Candidate revisions of one `correct_block` iteration on the current
lines (empty when the block has no suffix border at all, which is also the
loop's `break` condition). -/
def candidateRevs (ord : CountList → CountList) (b : DiagramBlock)
    (lines : List Line) : List Revision :=
  let slice := blockSlice lines b
  let analyzed := slice.map analyzeLine
  match targetColumnOf analyzed with
  | none => []
  | some target => genRevsAux b.start (detectVerticalBorder ord slice) target analyzed 0

/-- Candidates passing the `min_score` filter. -/
def validRevs (cfg : Config) (ord : CountList → CountList) (b : DiagramBlock)
    (lines : List Line) : List Revision :=
  (candidateRevs ord b lines).filter
    (fun r =>
      decide (r.score ((blockSlice lines b).map analyzeLine) b.start ≥
        cfg.effectiveMinScore))

/-- Apply all revisions of one iteration, left to right. -/
def applyRevs (revs : List Revision) (lines : List Line) : List Line :=
  revs.foldl (fun ls r => r.apply ls) lines

/-- The fixed-point loop of src/main.rs `correct_block`, fuelled by
`max_iters`; returns the lines plus (applied, skipped) counts. -/
def correctBlockGo (cfg : Config) (ord : CountList → CountList) (b : DiagramBlock) :
    Nat → List Line → Nat → Nat → List Line × Nat × Nat
  | 0, lines, applied, skipped => (lines, applied, skipped)
  | fuel+1, lines, applied, skipped =>
    let cands := candidateRevs ord b lines
    let valid := validRevs cfg ord b lines
    let skipped := skipped + (cands.length - valid.length)
    if valid.isEmpty then (lines, applied, skipped)
    else correctBlockGo cfg ord b fuel (applyRevs valid lines) (applied + valid.length) skipped

/-- src/main.rs `correct_block`. -/
def correctBlock (cfg : Config) (ord : CountList → CountList)
    (lines : List Line) (b : DiagramBlock) : List Line × Nat × Nat :=
  correctBlockGo cfg ord b cfg.maxIters lines 0 0

/-! ## Orchestrator (src/main.rs `block_overlaps_ranges`, `correct_lines`) -/

/-- src/main.rs `block_overlaps_ranges` (block 0-indexed, ranges 1-indexed). -/
def blockOverlapsRanges (b : DiagramBlock) (ranges : List LineRange) : Bool :=
  ranges.any (fun r => decide (b.start + 1 ≤ r.endIdx) && decide (b.endIdx ≥ r.start))

/-- One step of the per-block loop of `correct_lines`: line-range skipping,
correction, statistics bookkeeping. -/
def correctLinesStep (cfg : Config) (ord : CountList → CountList)
    (acc : List Line × Stats) (b : DiagramBlock) : List Line × Stats :=
  let skip : Bool :=
    match cfg.lines with
    | some ranges => !blockOverlapsRanges b ranges
    | none => false
  if skip then
    (acc.1, { acc.2 with blocksSkipped := acc.2.blocksSkipped + 1 })
  else
    let res := correctBlock cfg ord acc.1 b
    let st :=
      if res.2.1 > 0 then
        { acc.2 with blocksModified := acc.2.blocksModified + 1,
                     totalRevisions := acc.2.totalRevisions + res.2.1 }
      else acc.2
    (res.1, { st with revisionsSkipped := st.revisionsSkipped + res.2.2 })

/-- src/main.rs `correct_lines`: quick-scan gate, tab expansion, block
detection, per-block correction with the line-range filter, statistics. -/
def correctLines (ord : CountList → CountList) (cfg : Config) (lines : List Line) :
    List Line × Stats :=
  let totalLines := lines.length
  if !cfg.allBlocks && !(quickScanForDiagrams lines).likelyHasDiagrams then
    (lines, { blocksFound := 0, blocksModified := 0, blocksSkipped := 0,
              totalRevisions := 0, revisionsSkipped := 0, totalLines := totalLines })
  else
    let expanded := lines.map (expandTabs cfg.tabWidth)
    let blocks := findDiagramBlocks expanded cfg.allBlocks
    let init : List Line × Stats :=
      (expanded, { blocksFound := blocks.length, blocksModified := 0, blocksSkipped := 0,
                   totalRevisions := 0, revisionsSkipped := 0, totalLines := totalLines })
    blocks.foldl (correctLinesStep cfg ord) init

/-! ## Claim C5: quick-scan passthrough -/

/-- The default configuration of the CLI (`max_iters = 10`, `min_score = 0.5`,
`tab_width = 4`, no preset, no line filter, `all_blocks = false`). -/
def defaultConfig : Config :=
  { maxIters := 10, minScore := 5/10, preset := none, tabWidth := 4,
    allBlocks := false, lines := none }

/-- A one-line prose document with no box characters. -/
def c5Lines : List Line := ["hello".toList]

/-- Claim C5 counterexample: on a one-line prose document the quick-scan
passthrough returns the lines unchanged, but the statistics are NOT
zero-valued: `total_lines` is set to the input line count (1 here, src/main.rs
line 1876) before the quick-scan gate returns. -/
theorem C5_counterexample :
    (correctLines id defaultConfig c5Lines).1 = c5Lines ∧
    (correctLines id defaultConfig c5Lines).2.totalLines = 1 ∧
    (1 : Nat) ≠ 0 :=
  ⟨by decide, by decide, by decide⟩

/-- Claim C5 amended: when `all_blocks` is false and fewer than 1% of the
first `min(1000, n)` scanned lines contain a box-drawing character,
`correct_lines` returns the input lines unchanged together with statistics
whose block and revision counters are all zero and whose `total_lines` equals
the input line count (`elapsed`, wall-clock time, is not modelled). -/
theorem C5_quickscan_passthrough_amended (ord : CountList → CountList)
    (cfg : Config) (lines : List Line)
    (hall : cfg.allBlocks = false)
    (hratio : (lines.take 1000).countP (fun l => l.any isBoxChar) * 100 <
      (lines.take 1000).length) :
    correctLines ord cfg lines =
      (lines, { blocksFound := 0, blocksModified := 0, blocksSkipped := 0,
                totalRevisions := 0, revisionsSkipped := 0,
                totalLines := lines.length }) := by
  have hscan : 0 < (lines.take 1000).length := by omega
  have hlt : ((lines.take 1000).countP (fun l => l.any isBoxChar) : ℚ) /
      ((lines.take 1000).length : ℚ) < 1/100 := by
    rw [div_lt_div_iff₀ (by exact_mod_cast hscan) (by norm_num)]
    rw [one_mul]
    exact_mod_cast hratio
  have hlikely : (quickScanForDiagrams lines).likelyHasDiagrams = false := by
    unfold quickScanForDiagrams
    simp only [if_pos hscan]
    exact decide_eq_false (not_le.mpr hlt)
  unfold correctLines
  rw [if_pos (by rw [hall, hlikely]; rfl)]

/-- Witness instantiating `C5_quickscan_passthrough_amended` on the one-line
prose document with the default configuration. -/
theorem C5_quickscan_passthrough_amended_witness :
    defaultConfig.allBlocks = false ∧
    ((c5Lines.take 1000).countP (fun l => l.any isBoxChar) * 100 <
      (c5Lines.take 1000).length) ∧
    correctLines id defaultConfig c5Lines =
      (c5Lines, { blocksFound := 0, blocksModified := 0, blocksSkipped := 0,
                  totalRevisions := 0, revisionsSkipped := 0,
                  totalLines := c5Lines.length }) :=
  ⟨by decide, by decide,
    C5_quickscan_passthrough_amended id defaultConfig c5Lines (by decide) (by decide)⟩

/-! ## Toolbox: maxima, slice indexing, and revision-generation membership -/

lemma listMaxNat_isSome (l : List Nat) (h : l ≠ []) : ∃ m, listMaxNat l = some m := by
  cases l with
  | nil => exact absurd rfl h
  | cons a t =>
    rcases ht : listMaxNat t with _ | m
    · exact ⟨a, by simp [listMaxNat, ht]⟩
    · exact ⟨max a m, by simp [listMaxNat, ht]⟩

lemma listMaxNat_ge (l : List Nat) (m : Nat) (hm : listMaxNat l = some m) :
    ∀ x ∈ l, x ≤ m := by
  induction l generalizing m with
  | nil => simp [listMaxNat] at hm
  | cons a t ih =>
    intro x hx
    rcases ht : listMaxNat t with _ | m'
    · rw [listMaxNat, ht] at hm
      have : a = m := by injection hm
      subst this
      rcases List.mem_cons.mp hx with rfl | hx'
      · exact le_refl _
      · cases t with
        | nil => simp at hx'
        | cons b t' =>
          rw [listMaxNat] at ht
          rcases h2 : listMaxNat t' with _ | z
          · rw [h2] at ht
            simp at ht
          · rw [h2] at ht
            simp at ht
    · rw [listMaxNat, ht] at hm
      have : max a m' = m := by injection hm
      subst this
      rcases List.mem_cons.mp hx with rfl | hx'
      · exact le_max_left _ _
      · exact le_trans (ih m' ht x hx') (le_max_right _ _)

lemma listMaxNat_mem (l : List Nat) (m : Nat) (hm : listMaxNat l = some m) :
    m ∈ l := by
  induction l generalizing m with
  | nil => simp [listMaxNat] at hm
  | cons a t ih =>
    rcases ht : listMaxNat t with _ | m'
    · rw [listMaxNat, ht] at hm
      have : a = m := by injection hm
      subst this
      exact List.mem_cons_self _ _
    · rw [listMaxNat, ht] at hm
      have : max a m' = m := by injection hm
      subst this
      rcases max_choice a m' with h | h
      · rw [h]; exact List.mem_cons_self _ _
      · rw [h]; exact List.mem_cons_of_mem _ (ih m' ht)

lemma listMaxNat_mem_le (l : List Nat) (x : Nat) (hx : x ∈ l) :
    ∃ m, listMaxNat l = some m ∧ x ≤ m ∧ m ∈ l := by
  obtain ⟨m, hm⟩ := listMaxNat_isSome l (List.ne_nil_of_mem hx)
  exact ⟨m, hm, listMaxNat_ge l m hm x hx, listMaxNat_mem l m hm⟩

lemma blockSlice_getElem? (lines : List Line) (b : DiagramBlock) (k : Nat)
    (hk : k < b.endIdx - b.start) :
    (blockSlice lines b)[k]? = lines[b.start + k]? := by
  unfold blockSlice
  rw [List.getElem?_take, if_pos hk, List.getElem?_drop]

lemma analyzeLine_nil_suffixBorder : (analyzeLine ([] : Line)).suffixBorder = none := by
  decide

lemma getElem?_eq_some_getD (l : List Line) (i : Nat) (h : i < l.length) :
    l[i]? = some (l.getD i []) := by
  rw [List.getElem?_eq_getElem h, List.getD_eq_getElem?_getD, List.getElem?_eq_getElem h]
  rfl

/-- If a line's analysis reports a suffix border, the index is in range. -/
lemma suffixBorder_lt_length (lines : List Line) (i : Nat) (sb : SuffixBorder)
    (hsb : (analyzeLine (lines.getD i [])).suffixBorder = some sb) :
    i < lines.length := by
  by_contra h
  rw [List.getD_eq_default _ _ (by omega)] at hsb
  rw [analyzeLine_nil_suffixBorder] at hsb
  exact Option.noConfusion hsb

/-- Membership: a bordered line below target generates its Pad candidate. -/
lemma genRevsAux_pad_mem (bs : Nat) (bc : Char) (t : Nat) :
    ∀ (analyzed : List AnalyzedLine) (i k : Nat) (a : AnalyzedLine) (sb : SuffixBorder),
      analyzed[k]? = some a → a.suffixBorder = some sb → sb.column < t →
      Revision.padBeforeSuffixBorder (bs + (i + k)) (t - sb.column) t ∈
        genRevsAux bs bc t analyzed i := by
  intro analyzed
  induction analyzed with
  | nil => intro i k a sb hk; simp at hk
  | cons hd rest ih =>
    intro i k a sb hk hsb hlt
    cases k with
    | zero =>
      have hha : hd = a := by simpa using hk
      subst hha
      simp only [genRevsAux, hsb, if_pos hlt, Nat.add_zero]
      exact List.mem_cons_self _ _
    | succ k' =>
      have hk' : rest[k']? = some a := by simpa using hk
      have hmem := ih (i+1) k' a sb hk' hsb hlt
      have harr : bs + (i + (k' + 1)) = bs + ((i + 1) + k') := by omega
      rw [harr]
      rcases hb : hd.suffixBorder with _ | border
      · by_cases hboxy : hd.kind.isBoxy = true
        · simp only [genRevsAux, hb, if_pos hboxy]
          exact List.mem_cons_of_mem _ hmem
        · simp only [genRevsAux, hb, if_neg hboxy]
          exact hmem
      · by_cases hbc : border.column < t
        · simp only [genRevsAux, hb, if_pos hbc]
          exact List.mem_cons_of_mem _ hmem
        · simp only [genRevsAux, hb, if_neg hbc]
          exact hmem

/-- Membership: a borderless boxy line generates its Add candidate. -/
lemma genRevsAux_add_mem (bs : Nat) (bc : Char) (t : Nat) :
    ∀ (analyzed : List AnalyzedLine) (i k : Nat) (a : AnalyzedLine),
      analyzed[k]? = some a → a.suffixBorder = none → a.kind.isBoxy = true →
      Revision.addSuffixBorder (bs + (i + k)) bc t ∈
        genRevsAux bs bc t analyzed i := by
  intro analyzed
  induction analyzed with
  | nil => intro i k a hk; simp at hk
  | cons hd rest ih =>
    intro i k a hk hsb hboxy
    cases k with
    | zero =>
      have hha : hd = a := by simpa using hk
      subst hha
      simp only [genRevsAux, hsb, if_pos hboxy, Nat.add_zero]
      exact List.mem_cons_self _ _
    | succ k' =>
      have hk' : rest[k']? = some a := by simpa using hk
      have hmem := ih (i+1) k' a hk' hsb hboxy
      have harr : bs + (i + (k' + 1)) = bs + ((i + 1) + k') := by omega
      rw [harr]
      rcases hb : hd.suffixBorder with _ | border
      · by_cases hb2 : hd.kind.isBoxy = true
        · simp only [genRevsAux, hb, if_pos hb2]
          exact List.mem_cons_of_mem _ hmem
        · simp only [genRevsAux, hb, if_neg hb2]
          exact hmem
      · by_cases hbc : border.column < t
        · simp only [genRevsAux, hb, if_pos hbc]
          exact List.mem_cons_of_mem _ hmem
        · simp only [genRevsAux, hb, if_neg hbc]
          exact hmem

/-- Characterisation of every generated revision. -/
lemma genRevsAux_mem_spec (bs : Nat) (bc : Char) (t : Nat) :
    ∀ (analyzed : List AnalyzedLine) (i : Nat) (rev : Revision),
      rev ∈ genRevsAux bs bc t analyzed i →
      ∃ k a, analyzed[k]? = some a ∧
        ((∃ sb, a.suffixBorder = some sb ∧ sb.column < t ∧
            rev = .padBeforeSuffixBorder (bs + (i + k)) (t - sb.column) t) ∨
         (a.suffixBorder = none ∧ a.kind.isBoxy = true ∧
            rev = .addSuffixBorder (bs + (i + k)) bc t)) := by
  intro analyzed
  induction analyzed with
  | nil => intro i rev h; simp [genRevsAux] at h
  | cons hd rest ih =>
    intro i rev h
    have hstep : ∀ rev', rev' ∈ genRevsAux bs bc t rest (i+1) →
        ∃ k a, (hd :: rest)[k]? = some a ∧
          ((∃ sb, a.suffixBorder = some sb ∧ sb.column < t ∧
              rev' = .padBeforeSuffixBorder (bs + (i + k)) (t - sb.column) t) ∨
           (a.suffixBorder = none ∧ a.kind.isBoxy = true ∧
              rev' = .addSuffixBorder (bs + (i + k)) bc t)) := by
      intro rev' h'
      obtain ⟨k, a, hk, hcase⟩ := ih (i+1) rev' h'
      have harr : bs + ((i + 1) + k) = bs + (i + (k + 1)) := by omega
      refine ⟨k + 1, a, by simpa using hk, ?_⟩
      rcases hcase with ⟨sb, h1, h2, h3⟩ | ⟨h1, h2, h3⟩
      · exact Or.inl ⟨sb, h1, h2, by rw [h3, harr]⟩
      · exact Or.inr ⟨h1, h2, by rw [h3, harr]⟩
    rcases hb : hd.suffixBorder with _ | border
    · by_cases hboxy : hd.kind.isBoxy = true
      · simp only [genRevsAux, hb, if_pos hboxy] at h
        rcases List.mem_cons.mp h with rfl | h'
        · exact ⟨0, hd, by simp, Or.inr ⟨hb, hboxy, by simp⟩⟩
        · exact hstep rev h'
      · simp only [genRevsAux, hb, if_neg hboxy] at h
        exact hstep rev h
    · by_cases hbc : border.column < t
      · simp only [genRevsAux, hb, if_pos hbc] at h
        rcases List.mem_cons.mp h with rfl | h'
        · exact ⟨0, hd, by simp, Or.inl ⟨border, hb, hbc, by simp⟩⟩
        · exact hstep rev h'
      · simp only [genRevsAux, hb, if_neg hbc] at h
        exact hstep rev h

/-- A bordered line of the block strictly below target yields a Pad candidate. -/
lemma candidate_pad_mem (ord : CountList → CountList) (b : DiagramBlock)
    (lines : List Line) (i : Nat) (sb : SuffixBorder) (t : Nat)
    (hi1 : b.start ≤ i) (hi2 : i < b.endIdx)
    (hsb : (analyzeLine (lines.getD i [])).suffixBorder = some sb)
    (ht : targetColumnOf ((blockSlice lines b).map analyzeLine) = some t)
    (hlt : sb.column < t) :
    Revision.padBeforeSuffixBorder i (t - sb.column) t ∈ candidateRevs ord b lines := by
  have hlen : i < lines.length := suffixBorder_lt_length lines i sb hsb
  have hk : i - b.start < b.endIdx - b.start := by omega
  have hsl : (blockSlice lines b)[i - b.start]? = some (lines.getD i []) := by
    rw [blockSlice_getElem? lines b _ hk,
      show b.start + (i - b.start) = i from by omega]
    exact getElem?_eq_some_getD lines i hlen
  have han : ((blockSlice lines b).map analyzeLine)[i - b.start]? =
      some (analyzeLine (lines.getD i [])) := by
    rw [List.getElem?_map, hsl]
    rfl
  have hmem := genRevsAux_pad_mem b.start (detectVerticalBorder ord (blockSlice lines b))
    t ((blockSlice lines b).map analyzeLine) 0 (i - b.start) _ sb han hsb hlt
  rw [show b.start + (0 + (i - b.start)) = i from by omega] at hmem
  unfold candidateRevs
  simp only []
  rw [ht]
  exact hmem

/-- The block's suffix-border columns are bounded by the target column, and
any present border forces a target to exist. -/
lemma targetColumnOf_bound (lines : List Line) (b : DiagramBlock)
    (i : Nat) (sb : SuffixBorder)
    (hi1 : b.start ≤ i) (hi2 : i < b.endIdx)
    (hsb : (analyzeLine (lines.getD i [])).suffixBorder = some sb) :
    ∃ t, targetColumnOf ((blockSlice lines b).map analyzeLine) = some t ∧
      sb.column ≤ t := by
  have hlen : i < lines.length := suffixBorder_lt_length lines i sb hsb
  have hk : i - b.start < b.endIdx - b.start := by omega
  have hsl : (blockSlice lines b)[i - b.start]? = some (lines.getD i []) := by
    rw [blockSlice_getElem? lines b _ hk,
      show b.start + (i - b.start) = i from by omega]
    exact getElem?_eq_some_getD lines i hlen
  have han : analyzeLine (lines.getD i []) ∈ (blockSlice lines b).map analyzeLine :=
    List.mem_map_of_mem _ (List.getElem?_mem hsl)
  have hcol : sb.column ∈
      ((blockSlice lines b).map analyzeLine).filterMap
        (fun a => a.suffixBorder.map (fun bd => bd.column)) := by
    exact List.mem_filterMap.mpr ⟨_, han, by rw [hsb]; rfl⟩
  obtain ⟨m, hm, hle, _⟩ := listMaxNat_mem_le _ _ hcol
  exact ⟨m, hm, hle⟩

/-! ## Claim C2: alignment at convergence -/

/-- Config with `min_score = 1.0` (a valid value: the validator accepts the
whole closed interval [0, 1]). -/
def c2Config : Config :=
  { maxIters := 10, minScore := 1, preset := none, tabWidth := 4,
    allBlocks := false, lines := none }

/-- Two strong lines whose borders sit at columns 2 and 3. -/
def c2Lines : List Line := ["|a|".toList, "|bb|".toList]

/-- Claim C2 counterexample: with `min_score = 1.0` the Pad revision for line
0 scores 0.9 and is filtered, so `correct_lines` returns the input unchanged;
the single output block `[0,2)` has final `target_column` 3 while line 0 — a
line that HAD a suffix border in the input, so the claim's only exception
does not cover it — carries its border at column 2 ≠ 3. -/
theorem C2_counterexample :
    (correctLines id c2Config c2Lines).1 = c2Lines ∧
    (findDiagramBlocks c2Lines false).map (fun b => (b.start, b.endIdx)) = [(0, 2)] ∧
    (analyzeLine (c2Lines.getD 0 [])).suffixBorder.map (fun b => b.column) = some 2 ∧
    targetColumnOf ((blockSlice c2Lines ⟨0, 2, 1⟩).map analyzeLine) = some 3 ∧
    (2 : Nat) ≠ 3 :=
  ⟨by decide, by decide, by decide, by decide, by decide⟩

/-- Claim C2 amended: when the block's fixed-point loop has converged (the
state admits no revision scoring ≥ the effective `min_score` — the state in
which `correct_block` leaves a block unless `max_iters` was exhausted first),
every line of the block carrying a suffix border has it either exactly at the
block's final `target_column`, or strictly below it with its Pad revision
scoring below the effective `min_score`.  (The claim's original exception
covered only skipped `AddSuffixBorder` revisions; skipped Pad revisions — and
`max_iters` exhaustion — also leave misaligned borders.) -/
theorem C2_alignment_amended (cfg : Config) (ord : CountList → CountList)
    (lines : List Line) (b : DiagramBlock)
    (hconv : validRevs cfg ord b lines = [])
    (i : Nat) (hi1 : b.start ≤ i) (hi2 : i < b.endIdx)
    (sb : SuffixBorder)
    (hsb : (analyzeLine (lines.getD i [])).suffixBorder = some sb) :
    ∃ t, targetColumnOf ((blockSlice lines b).map analyzeLine) = some t ∧
      (sb.column = t ∨
        (sb.column < t ∧
          (Revision.padBeforeSuffixBorder i (t - sb.column) t).score
            ((blockSlice lines b).map analyzeLine) b.start <
            cfg.effectiveMinScore)) := by
  obtain ⟨t, ht, hle⟩ := targetColumnOf_bound lines b i sb hi1 hi2 hsb
  refine ⟨t, ht, ?_⟩
  rcases Nat.eq_or_lt_of_le hle with heq | hlt
  · exact Or.inl heq
  · refine Or.inr ⟨hlt, ?_⟩
    have hcand := candidate_pad_mem ord b lines i sb t hi1 hi2 hsb ht hlt
    by_contra hscore
    push_neg at hscore
    have : Revision.padBeforeSuffixBorder i (t - sb.column) t ∈ validRevs cfg ord b lines := by
      unfold validRevs
      exact List.mem_filter.mpr ⟨hcand, by simpa using hscore⟩
    rw [hconv] at this
    simp at this

/-- Witness instantiating `C2_alignment_amended` on the converged `c2Lines`
state with `min_score = 1.0`: line 0's border at column 2 is strictly below
target 3 and its Pad revision scores 0.9 < 1.0. -/
theorem C2_alignment_amended_witness :
    (validRevs c2Config id ⟨0, 2, 1⟩ c2Lines = []) ∧
    ((0:Nat) ≤ 0) ∧ ((0:Nat) < 2) ∧
    ((analyzeLine (c2Lines.getD 0 [])).suffixBorder = some ⟨2, '|', false⟩) ∧
    (∃ t, targetColumnOf ((blockSlice c2Lines ⟨0, 2, 1⟩).map analyzeLine) = some t ∧
      ((⟨2, '|', false⟩ : SuffixBorder).column = t ∨
        ((⟨2, '|', false⟩ : SuffixBorder).column < t ∧
          (Revision.padBeforeSuffixBorder 0 (t - (⟨2, '|', false⟩ : SuffixBorder).column) t).score
            ((blockSlice c2Lines ⟨0, 2, 1⟩).map analyzeLine) (0:Nat) <
            c2Config.effectiveMinScore))) :=
  ⟨by decide, by decide, by decide, by decide,
    C2_alignment_amended c2Config id c2Lines ⟨0, 2, 1⟩ (by decide) 0 (by decide) (by decide)
      ⟨2, '|', false⟩ (by decide)⟩

/-! ## Toolbox: right-trimming and subsequences -/

lemma trimEnd_sublist (l : Line) : List.Sublist (trimEnd l) l := by
  have h := (List.dropWhile_sublist (l := l.reverse) (p := rustIsWhitespace)).reverse
  rwa [List.reverse_reverse] at h

lemma trimEnd_getLast?_not_ws (l : Line) (c : Char)
    (h : (trimEnd l).getLast? = some c) : rustIsWhitespace c = false := by
  unfold trimEnd at h
  rw [List.getLast?_reverse] at h
  revert h
  induction l.reverse with
  | nil => intro h; simp at h
  | cons d rest ih =>
    intro h
    by_cases hd : rustIsWhitespace d
    · rw [List.dropWhile_cons_of_pos hd] at h
      exact ih h
    · rw [List.dropWhile_cons_of_neg hd] at h
      have : d = c := by simpa using h
      subst this
      exact Bool.not_eq_true _ ▸ by simpa using hd

lemma sublist_dropWhile_of_head_not_ws :
    ∀ (b a : Line), List.Sublist a b → (∀ c, a.head? = some c → rustIsWhitespace c = false) →
      List.Sublist a (b.dropWhile rustIsWhitespace) := by
  intro b
  induction b with
  | nil =>
    intro a hab _
    simpa using hab
  | cons d rest ih =>
    intro a hab ha
    by_cases hd : rustIsWhitespace d
    · rw [List.dropWhile_cons_of_pos hd]
      cases hab with
      | cons _ h => exact ih a h ha
      | cons₂ _ h =>
        have : rustIsWhitespace d = false := ha d rfl
        rw [this] at hd
        exact absurd hd (by simp)
    · rw [List.dropWhile_cons_of_neg hd]
      exact hab

lemma sublist_trimEnd_of_last_not_ws (a b : Line) (hab : List.Sublist a b)
    (ha : ∀ c, a.getLast? = some c → rustIsWhitespace c = false) :
    List.Sublist a (trimEnd b) := by
  unfold trimEnd
  have h1 : List.Sublist a.reverse (b.reverse.dropWhile rustIsWhitespace) := by
    refine sublist_dropWhile_of_head_not_ws b.reverse a.reverse hab.reverse ?_
    intro c hc
    rw [List.head?_reverse] at hc
    exact ha c hc
  have := h1.reverse
  rwa [List.reverse_reverse] at this

/-- The composition used throughout: a right-trimmed line embeds into the
right-trimmed form of any supersequence. -/
lemma trimEnd_sublist_trimEnd (a b : Line) (hab : List.Sublist (trimEnd a) b) :
    List.Sublist (trimEnd a) (trimEnd b) :=
  sublist_trimEnd_of_last_not_ws _ _ hab (trimEnd_getLast?_not_ws a)

/-! ## Toolbox: `getD`/`set` arithmetic on the line list -/

lemma getD_set_ne (l : List Line) (i j : Nat) (v : Line) (h : j ≠ i) :
    (l.set i v).getD j [] = l.getD j [] := by
  induction l generalizing i j with
  | nil => simp
  | cons a t ih =>
    cases i with
    | zero =>
      cases j with
      | zero => exact absurd rfl h
      | succ j' => simp [List.getD]
    | succ i' =>
      cases j with
      | zero => simp [List.getD]
      | succ j' =>
        simp only [List.set, List.getD_cons_succ]
        exact ih i' j' (fun he => h (by rw [he]))

lemma getD_set_self (l : List Line) (i : Nat) (v : Line) (h : i < l.length) :
    (l.set i v).getD i [] = v := by
  induction l generalizing i with
  | nil => simp at h
  | cons a t ih =>
    cases i with
    | zero => simp [List.getD]
    | succ i' =>
      simp only [List.set, List.getD_cons_succ]
      exact ih i' (by simpa using h)

/-- Per-line effect of `Revision::apply`: every line's right-trimmed old value
embeds into the new value (untouched lines are unchanged; a padded line keeps
its trimmed content with spaces spliced before the border; an added border is
appended after the trimmed content). -/
lemma apply_trimEnd_sublist (rev : Revision) (lines : List Line) (j : Nat) :
    List.Sublist (trimEnd (lines.getD j [])) ((rev.apply lines).getD j []) := by
  cases rev with
  | padBeforeSuffixBorder idx sp tc =>
    show List.Sublist (trimEnd (lines.getD j []))
      ((Revision.apply (.padBeforeSuffixBorder idx sp tc) lines).getD j [])
    simp only [Revision.apply]
    rcases hl : (trimEnd (lines.getD idx [])).getLast? with _ | lastChar
    · exact trimEnd_sublist _
    · simp only []
      by_cases hb : isBorderChar lastChar
      · rw [if_pos hb]
        by_cases hj : j = idx
        · subst hj
          by_cases hlen : j < lines.length
          · rw [getD_set_self _ _ _ hlen]
            have hsplit : (trimEnd (lines.getD j [])).dropLast ++ [lastChar] =
                trimEnd (lines.getD j []) := by
              have hne : trimEnd (lines.getD j []) ≠ [] := by
                intro h0
                rw [h0] at hl
                simp at hl
              conv_rhs => rw [← List.dropLast_append_getLast hne]
              congr 1
              rw [List.getLast?_eq_getLast _ hne] at hl
              simpa using hl.symm
            conv_lhs => rw [← hsplit]
            rw [List.append_assoc]
            exact List.Sublist.append_left (List.sublist_append_right _ _) _
          · rw [List.set_eq_of_length_le (by omega)]
            exact trimEnd_sublist _
        · rw [getD_set_ne _ _ _ _ hj]
          exact trimEnd_sublist _
      · rw [if_neg hb]
        exact trimEnd_sublist _
  | addSuffixBorder idx bc tc =>
    show List.Sublist (trimEnd (lines.getD j []))
      ((Revision.apply (.addSuffixBorder idx bc tc) lines).getD j [])
    simp only [Revision.apply]
    by_cases hj : j = idx
    · subst hj
      by_cases hlen : j < lines.length
      · rw [getD_set_self _ _ _ hlen]
        rw [List.append_assoc]
        exact List.sublist_append_left _ _
      · rw [List.set_eq_of_length_le (by omega)]
        exact trimEnd_sublist _
    · rw [getD_set_ne _ _ _ _ hj]
      exact trimEnd_sublist _

/-! ## Claim C1: machinery lifting the per-revision embedding through the
whole pipeline -/

lemma applyRevs_trimEnd_sublist (revs : List Revision) :
    ∀ (orig cur : List Line),
      (∀ j, List.Sublist (trimEnd (orig.getD j [])) (cur.getD j [])) →
      ∀ j, List.Sublist (trimEnd (orig.getD j [])) ((applyRevs revs cur).getD j []) := by
  induction revs with
  | nil => intro orig cur h j; exact h j
  | cons rev rest ih =>
    intro orig cur h j
    rw [show applyRevs (rev :: rest) cur = applyRevs rest (rev.apply cur) from rfl]
    refine ih orig (rev.apply cur) (fun j' => ?_) j
    exact (trimEnd_sublist_trimEnd _ _ (h j')).trans (apply_trimEnd_sublist rev cur j')

lemma correctBlockGo_trimEnd_sublist (cfg : Config) (ord : CountList → CountList)
    (b : DiagramBlock) :
    ∀ (fuel : Nat) (orig cur : List Line) (ap sk : Nat),
      (∀ j, List.Sublist (trimEnd (orig.getD j [])) (cur.getD j [])) →
      ∀ j, List.Sublist (trimEnd (orig.getD j []))
        ((correctBlockGo cfg ord b fuel cur ap sk).1.getD j []) := by
  intro fuel
  induction fuel with
  | zero => intro orig cur ap sk h j; exact h j
  | succ fuel ih =>
    intro orig cur ap sk h j
    rw [correctBlockGo]
    by_cases hv : (validRevs cfg ord b cur).isEmpty
    · rw [if_pos hv]
      exact h j
    · rw [if_neg hv]
      exact ih orig (applyRevs (validRevs cfg ord b cur) cur) _ _
        (applyRevs_trimEnd_sublist _ orig cur h) j

lemma foldBlocks_trimEnd_sublist (cfg : Config) (ord : CountList → CountList) :
    ∀ (blocks : List DiagramBlock) (orig : List Line) (acc : List Line × Stats),
      (∀ j, List.Sublist (trimEnd (orig.getD j [])) (acc.1.getD j [])) →
      ∀ j, List.Sublist (trimEnd (orig.getD j []))
        ((blocks.foldl (correctLinesStep cfg ord) acc).1.getD j []) := by
  intro blocks
  induction blocks with
  | nil => intro orig acc h j; exact h j
  | cons b rest ih =>
    intro orig acc h j
    rw [List.foldl_cons]
    refine ih orig (correctLinesStep cfg ord acc b) (fun j' => ?_) j
    unfold correctLinesStep
    by_cases hs : (match cfg.lines with
      | some ranges => !blockOverlapsRanges b ranges
      | none => false) = true
    · simp only [hs, if_pos rfl]
      exact h j'
    · simp only []
      rw [if_neg (by simpa using hs)]
      exact correctBlockGo_trimEnd_sublist cfg ord b cfg.maxIters orig acc.1 0 0 h j'

lemma expandTabsGo_eq_self (tw : Nat) :
    ∀ (l : Line) (col : Nat), '\t' ∉ l → expandTabsGo tw l col = l := by
  intro l
  induction l with
  | nil => intro col _; rfl
  | cons c rest ih =>
    intro col h
    have hc : ¬ c = '\t' := fun he => h (he ▸ List.mem_cons_self _ _)
    have hr : '\t' ∉ rest := fun hm => h (List.mem_cons_of_mem _ hm)
    rw [expandTabsGo, if_neg hc, ih _ hr]

lemma map_expandTabs_eq_self (tw : Nat) (lines : List Line)
    (h : ∀ l ∈ lines, '\t' ∉ l) : lines.map (expandTabs tw) = lines := by
  induction lines with
  | nil => rfl
  | cons l rest ih =>
    rw [List.map_cons, ih (fun l' hl' => h l' (List.mem_cons_of_mem _ hl'))]
    rw [show expandTabs tw l = l from
      expandTabsGo_eq_self tw l 0 (h l (List.mem_cons_self _ _))]

/-! ## Claim C1 theorems -/

/-- A two-line box whose first line carries one trailing space. -/
def c1Lines : List Line := ["|a| ".toList, "|bbb|".toList]

/-- Claim C1 counterexample: the pipeline pads line 0 of `c1Lines` to
`"|a  |"`; the input line `"|a| "` is NOT a subsequence of it (its trailing
space would have to follow the final border), and likewise for a direct
`Revision::apply` of the Pad revision: revisions discard trailing whitespace,
so the output is not always a supersequence of the input line. -/
theorem C1_counterexample :
    (correctLines id defaultConfig c1Lines).1.getD 0 [] = "|a  |".toList ∧
    ¬ List.Sublist (c1Lines.getD 0 [])
        ((correctLines id defaultConfig c1Lines).1.getD 0 []) ∧
    ¬ List.Sublist (c1Lines.getD 0 [])
        (((Revision.padBeforeSuffixBorder 0 2 4).apply c1Lines).getD 0 []) :=
  ⟨by decide, by decide, by decide⟩

/-- Claim C1 amended: applying any single `Revision` to the line list yields,
at every index, a supersequence of that line's RIGHT-TRIMMED old value; and
for tab-free input documents (tab expansion itself rewrites `\t` into
spaces), every output line of `correct_lines` contains the right-trimmed
input line as a character-by-character subsequence. -/
theorem C1_monotonicity_amended :
    (∀ (rev : Revision) (lines : List Line) (j : Nat),
      List.Sublist (trimEnd (lines.getD j [])) ((rev.apply lines).getD j [])) ∧
    (∀ (ord : CountList → CountList) (cfg : Config) (lines : List Line),
      (∀ l ∈ lines, '\t' ∉ l) →
      ∀ j, List.Sublist (trimEnd (lines.getD j []))
        ((correctLines ord cfg lines).1.getD j [])) := by
  constructor
  · exact apply_trimEnd_sublist
  · intro ord cfg lines htab j
    unfold correctLines
    by_cases hgate : (!cfg.allBlocks &&
        !(quickScanForDiagrams lines).likelyHasDiagrams) = true
    · rw [if_pos hgate]
      exact trimEnd_sublist _
    · rw [if_neg hgate]
      simp only []
      rw [map_expandTabs_eq_self cfg.tabWidth lines htab]
      exact foldBlocks_trimEnd_sublist cfg ord _ lines _
        (fun j' => trimEnd_sublist _) j

/-- Witness instantiating `C1_monotonicity_amended` on the tab-free
`c1Lines`. -/
theorem C1_monotonicity_amended_witness :
    (∀ l ∈ c1Lines, '\t' ∉ l) ∧
    List.Sublist (trimEnd (c1Lines.getD 0 []))
      ((correctLines id defaultConfig c1Lines).1.getD 0 []) :=
  ⟨by decide, C1_monotonicity_amended.2 id defaultConfig c1Lines (by decide) 0⟩

/-! ## Claim C10: frame property (lines outside all blocks) -/

/-- Every candidate revision targets a line inside its block's `[start, endIdx)`. -/
lemma candidateRevs_lineIdx_range (ord : CountList → CountList) (b : DiagramBlock)
    (lines : List Line) (rev : Revision) (h : rev ∈ candidateRevs ord b lines) :
    b.start ≤ rev.lineIdx ∧ rev.lineIdx < b.endIdx := by
  unfold candidateRevs at h
  simp only [] at h
  rcases ht : targetColumnOf ((blockSlice lines b).map analyzeLine) with _ | t
  · rw [ht] at h
    simp at h
  · rw [ht] at h
    obtain ⟨k, a, hk, hcase⟩ := genRevsAux_mem_spec _ _ _ _ 0 rev h
    have hklen : k < ((blockSlice lines b).map analyzeLine).length := by
      by_contra h'
      rw [List.getElem?_eq_none (by omega)] at hk
      exact Option.noConfusion hk
    have hslice : ((blockSlice lines b).map analyzeLine).length ≤ b.endIdx - b.start := by
      rw [List.length_map]
      unfold blockSlice
      rw [List.length_take]
      omega
    have hke : k < b.endIdx - b.start := by omega
    rcases hcase with ⟨sb, _, _, hrev⟩ | ⟨_, _, hrev⟩ <;>
      · rw [hrev]
        simp only [Revision.lineIdx]
        omega

/-- A revision leaves every other index untouched. -/
lemma apply_getD_outside (rev : Revision) (lines : List Line) (j : Nat)
    (h : rev.lineIdx ≠ j) : (rev.apply lines).getD j [] = lines.getD j [] := by
  cases rev with
  | padBeforeSuffixBorder idx sp tc =>
    simp only [Revision.apply]
    rcases (trimEnd (lines.getD idx [])).getLast? with _ | lastChar
    · rfl
    · simp only []
      by_cases hb : isBorderChar lastChar
      · rw [if_pos hb]
        exact getD_set_ne _ _ _ _ (fun he => h (by simpa [Revision.lineIdx] using he.symm))
      · rw [if_neg hb]
  | addSuffixBorder idx bc tc =>
    simp only [Revision.apply]
    exact getD_set_ne _ _ _ _ (fun he => h (by simpa [Revision.lineIdx] using he.symm))

lemma applyRevs_getD_outside (revs : List Revision) :
    ∀ (lines : List Line) (j : Nat), (∀ rev ∈ revs, rev.lineIdx ≠ j) →
      (applyRevs revs lines).getD j [] = lines.getD j [] := by
  induction revs with
  | nil => intro lines j _; rfl
  | cons rev rest ih =>
    intro lines j h
    rw [show applyRevs (rev :: rest) lines = applyRevs rest (rev.apply lines) from rfl]
    rw [ih (rev.apply lines) j (fun r hr => h r (List.mem_cons_of_mem _ hr))]
    exact apply_getD_outside rev lines j (h rev (List.mem_cons_self _ _))

lemma correctBlockGo_getD_outside (cfg : Config) (ord : CountList → CountList)
    (b : DiagramBlock) :
    ∀ (fuel : Nat) (cur : List Line) (ap sk j : Nat), (j < b.start ∨ b.endIdx ≤ j) →
      (correctBlockGo cfg ord b fuel cur ap sk).1.getD j [] = cur.getD j [] := by
  intro fuel
  induction fuel with
  | zero => intro cur ap sk j _; rfl
  | succ fuel ih =>
    intro cur ap sk j hj
    rw [correctBlockGo]
    by_cases hv : (validRevs cfg ord b cur).isEmpty
    · rw [if_pos hv]
    · rw [if_neg hv]
      rw [ih _ _ _ j hj]
      refine applyRevs_getD_outside _ cur j (fun rev hr => ?_)
      have hmem : rev ∈ candidateRevs ord b cur :=
        (List.mem_filter.mp hr).1
      have := candidateRevs_lineIdx_range ord b cur rev hmem
      omega

lemma foldBlocks_getD_outside (cfg : Config) (ord : CountList → CountList) :
    ∀ (blocks : List DiagramBlock) (acc : List Line × Stats) (j : Nat),
      (∀ b ∈ blocks, j < b.start ∨ b.endIdx ≤ j) →
      (blocks.foldl (correctLinesStep cfg ord) acc).1.getD j [] = acc.1.getD j [] := by
  intro blocks
  induction blocks with
  | nil => intro acc j _; rfl
  | cons b rest ih =>
    intro acc j h
    rw [List.foldl_cons]
    rw [ih (correctLinesStep cfg ord acc b) j (fun b' hb' => h b' (List.mem_cons_of_mem _ hb'))]
    unfold correctLinesStep
    by_cases hs : (match cfg.lines with
      | some ranges => !blockOverlapsRanges b ranges
      | none => false) = true
    · rw [if_pos hs]
    · simp only []
      rw [if_neg (by simpa using hs)]
      exact correctBlockGo_getD_outside cfg ord b cfg.maxIters acc.1 0 0 j
        (h b (List.mem_cons_self _ _))

lemma getD_map_expand (tw : Nat) (lines : List Line) (j : Nat) :
    (lines.map (expandTabs tw)).getD j [] = expandTabs tw (lines.getD j []) := by
  by_cases h : j < lines.length
  · rw [List.getD_eq_getElem?_getD, List.getElem?_map, getElem?_eq_some_getD lines j h]
    rfl
  · rw [List.getD_eq_default _ _ (by simpa using (by omega : lines.length ≤ j)),
      List.getD_eq_default _ _ (by omega)]
    rfl

/-- A one-line document holding a tab and no box character. -/
def c10Lines : List Line := ["a\tb".toList]

/-- Claim C10 counterexample: with the quick-scan passthrough no block is
emitted — so index 0 lies outside all emitted blocks — yet the returned line
is the raw input `"a\tb"`, not its tab expansion `"a   b"`: the passthrough
path skips tab expansion entirely. -/
theorem C10_counterexample :
    (correctLines id defaultConfig c10Lines).1.getD 0 [] = "a\tb".toList ∧
    findDiagramBlocks (c10Lines.map (expandTabs defaultConfig.tabWidth))
      defaultConfig.allBlocks = [] ∧
    expandTabs defaultConfig.tabWidth ("a\tb".toList) = "a   b".toList ∧
    "a\tb".toList ≠ "a   b".toList :=
  ⟨by decide, by decide, by decide, by decide⟩

/-- Claim C10 amended: every candidate revision targets a line index inside
its own block's half-open `[start, end)` range; and whenever block processing
actually runs (`all_blocks`, or the quick scan reports diagrams), every line
whose index lies outside all emitted blocks is returned exactly as produced
by tab expansion.  (In the quick-scan passthrough case the lines are instead
returned raw, without tab expansion.) -/
theorem C10_frame_amended :
    (∀ (ord : CountList → CountList) (b : DiagramBlock) (lines : List Line)
        (rev : Revision), rev ∈ candidateRevs ord b lines →
      b.start ≤ rev.lineIdx ∧ rev.lineIdx < b.endIdx) ∧
    (∀ (ord : CountList → CountList) (cfg : Config) (lines : List Line) (j : Nat),
      (cfg.allBlocks = true ∨ (quickScanForDiagrams lines).likelyHasDiagrams = true) →
      (∀ b ∈ findDiagramBlocks (lines.map (expandTabs cfg.tabWidth)) cfg.allBlocks,
        j < b.start ∨ b.endIdx ≤ j) →
      (correctLines ord cfg lines).1.getD j [] =
        expandTabs cfg.tabWidth (lines.getD j [])) := by
  constructor
  · exact candidateRevs_lineIdx_range
  · intro ord cfg lines j hgate hout
    have hcond : (!cfg.allBlocks &&
        !(quickScanForDiagrams lines).likelyHasDiagrams) = false := by
      rcases hgate with h | h <;> rw [h] <;> simp
    unfold correctLines
    rw [if_neg (by rw [hcond]; exact Bool.false_ne_true)]
    simp only []
    rw [foldBlocks_getD_outside cfg ord _ _ j hout]
    exact getD_map_expand cfg.tabWidth lines j

/-- Witness instantiating `C10_frame_amended` on `c7Lines`: index 2 lies
outside the two emitted blocks `[0,1)` and `[4,5)` and is returned as the
(trivial) tab expansion of the prose line `"b"`. -/
theorem C10_frame_amended_witness :
    (defaultConfig.allBlocks = true ∨
      (quickScanForDiagrams c7Lines).likelyHasDiagrams = true) ∧
    (∀ b ∈ findDiagramBlocks (c7Lines.map (expandTabs defaultConfig.tabWidth))
        defaultConfig.allBlocks, 2 < b.start ∨ b.endIdx ≤ 2) ∧
    (correctLines id defaultConfig c7Lines).1.getD 2 [] =
      expandTabs defaultConfig.tabWidth (c7Lines.getD 2 []) :=
  ⟨Or.inr (by decide), by decide,
    C10_frame_amended.2 id defaultConfig c7Lines 2 (Or.inr (by decide)) (by decide)⟩

/-! ## Claim C4: convergence machinery.

The per-line effect of the two revision kinds, uniqueness of the revision
per line and per iteration, and the two-productive-iterations bound. -/

/-- The string `PadBeforeSuffixBorder` writes into its line. -/
def padLine (sp : Nat) (l : Line) : Line :=
  match (trimEnd l).getLast? with
  | some lastChar =>
    if isBorderChar lastChar then
      (trimEnd l).dropLast ++ List.replicate sp ' ' ++ [lastChar]
    else l
  | none => l

/-- The string `AddSuffixBorder` writes into its line. -/
def addLine (bc : Char) (tc : Nat) (l : Line) : Line :=
  trimEnd l ++ List.replicate (tc - visualWidth (trimEnd l)) ' ' ++ [bc]

/-- The line-level transformer of a revision. -/
def applyRevLine (rev : Revision) (l : Line) : Line :=
  match rev with
  | .padBeforeSuffixBorder _ sp _ => padLine sp l
  | .addSuffixBorder _ bc tc => addLine bc tc l

lemma apply_length (rev : Revision) (lines : List Line) :
    (rev.apply lines).length = lines.length := by
  cases rev with
  | padBeforeSuffixBorder idx sp tc =>
    simp only [Revision.apply]
    rcases (trimEnd (lines.getD idx [])).getLast? with _ | lastChar
    · rfl
    · simp only []
      by_cases hb : isBorderChar lastChar
      · rw [if_pos hb, List.length_set]
      · rw [if_neg hb]
  | addSuffixBorder idx bc tc =>
    simp only [Revision.apply]
    rw [List.length_set]

lemma applyRevs_length (revs : List Revision) :
    ∀ lines : List Line, (applyRevs revs lines).length = lines.length := by
  induction revs with
  | nil => intro lines; rfl
  | cons rev rest ih =>
    intro lines
    rw [show applyRevs (rev :: rest) lines = applyRevs rest (rev.apply lines) from rfl,
      ih, apply_length]

/-- At its own (in-range) index a revision writes `applyRevLine`. -/
lemma apply_getD_self (rev : Revision) (lines : List Line)
    (h : rev.lineIdx < lines.length) :
    (rev.apply lines).getD rev.lineIdx [] =
      applyRevLine rev (lines.getD rev.lineIdx []) := by
  cases rev with
  | padBeforeSuffixBorder idx sp tc =>
    simp only [Revision.apply, applyRevLine, padLine, Revision.lineIdx] at h ⊢
    rcases (trimEnd (lines.getD idx [])).getLast? with _ | lastChar
    · rfl
    · simp only []
      by_cases hb : isBorderChar lastChar
      · rw [if_pos hb, if_pos hb, getD_set_self _ _ _ h]
      · rw [if_neg hb, if_neg hb]
  | addSuffixBorder idx bc tc =>
    simp only [Revision.apply, applyRevLine, addLine, Revision.lineIdx] at h ⊢
    rw [getD_set_self _ _ _ h]

lemma genRevsAux_lineIdx_ge (bs : Nat) (bc : Char) (t : Nat) :
    ∀ (analyzed : List AnalyzedLine) (i : Nat) (rev : Revision),
      rev ∈ genRevsAux bs bc t analyzed i → bs + i ≤ rev.lineIdx := by
  intro analyzed
  induction analyzed with
  | nil => intro i rev h; simp [genRevsAux] at h
  | cons hd rest ih =>
    intro i rev h
    have htail : ∀ rev', rev' ∈ genRevsAux bs bc t rest (i+1) → bs + i ≤ rev'.lineIdx :=
      fun rev' h' => le_trans (by omega) (ih (i+1) rev' h')
    rcases hb : hd.suffixBorder with _ | border
    · by_cases hboxy : hd.kind.isBoxy = true
      · simp only [genRevsAux, hb, if_pos hboxy] at h
        rcases List.mem_cons.mp h with rfl | h'
        · simp [Revision.lineIdx]
        · exact htail rev h'
      · simp only [genRevsAux, hb, if_neg hboxy] at h
        exact htail rev h
    · by_cases hbc : border.column < t
      · simp only [genRevsAux, hb, if_pos hbc] at h
        rcases List.mem_cons.mp h with rfl | h'
        · simp [Revision.lineIdx]
        · exact htail rev h'
      · simp only [genRevsAux, hb, if_neg hbc] at h
        exact htail rev h

lemma genRevsAux_pairwise (bs : Nat) (bc : Char) (t : Nat) :
    ∀ (analyzed : List AnalyzedLine) (i : Nat),
      (genRevsAux bs bc t analyzed i).Pairwise
        (fun r1 r2 => r1.lineIdx < r2.lineIdx) := by
  intro analyzed
  induction analyzed with
  | nil => intro i; simp [genRevsAux]
  | cons hd rest ih =>
    intro i
    have hcons : ∀ rev : Revision, rev.lineIdx = bs + i →
        ((genRevsAux bs bc t rest (i+1)).Pairwise
          (fun r1 r2 => r1.lineIdx < r2.lineIdx)) →
        (rev :: genRevsAux bs bc t rest (i+1)).Pairwise
          (fun r1 r2 => r1.lineIdx < r2.lineIdx) := by
      intro rev hidx htl
      refine List.Pairwise.cons (fun r hr => ?_) htl
      have := genRevsAux_lineIdx_ge bs bc t rest (i+1) r hr
      omega
    rcases hb : hd.suffixBorder with _ | border
    · by_cases hboxy : hd.kind.isBoxy = true
      · simp only [genRevsAux, hb, if_pos hboxy]
        exact hcons _ (by simp [Revision.lineIdx]) (ih (i+1))
      · simp only [genRevsAux, hb, if_neg hboxy]
        exact ih (i+1)
    · by_cases hbc : border.column < t
      · simp only [genRevsAux, hb, if_pos hbc]
        exact hcons _ (by simp [Revision.lineIdx]) (ih (i+1))
      · simp only [genRevsAux, hb, if_neg hbc]
        exact ih (i+1)

lemma candidateRevs_pairwise (ord : CountList → CountList) (b : DiagramBlock)
    (lines : List Line) :
    (candidateRevs ord b lines).Pairwise (fun r1 r2 => r1.lineIdx < r2.lineIdx) := by
  unfold candidateRevs
  simp only []
  rcases targetColumnOf ((blockSlice lines b).map analyzeLine) with _ | t
  · simp
  · exact genRevsAux_pairwise _ _ _ _ 0

lemma validRevs_pairwise (cfg : Config) (ord : CountList → CountList)
    (b : DiagramBlock) (lines : List Line) :
    (validRevs cfg ord b lines).Pairwise (fun r1 r2 => r1.lineIdx < r2.lineIdx) :=
  (candidateRevs_pairwise ord b lines).sublist (List.filter_sublist _)

/-- The value `applyRevs` leaves at the index of one of its (pairwise
index-distinct) revisions. -/
lemma applyRevs_getD_mem (revs : List Revision) :
    ∀ (lines : List Line) (rev : Revision),
      revs.Pairwise (fun r1 r2 => r1.lineIdx < r2.lineIdx) →
      rev ∈ revs → rev.lineIdx < lines.length →
      (applyRevs revs lines).getD rev.lineIdx [] =
        applyRevLine rev (lines.getD rev.lineIdx []) := by
  induction revs with
  | nil => intro lines rev _ h; simp at h
  | cons r rest ih =>
    intro lines rev hp hm hlen
    rw [show applyRevs (r :: rest) lines = applyRevs rest (r.apply lines) from rfl]
    rcases List.mem_cons.mp hm with rfl | hm'
    · rw [applyRevs_getD_outside rest (rev.apply lines) rev.lineIdx
        (fun r' hr' => by have := (List.pairwise_cons.mp hp).1 r' hr'; omega)]
      exact apply_getD_self rev lines hlen
    · have hne : r.lineIdx ≠ rev.lineIdx := by
        have := (List.pairwise_cons.mp hp).1 rev hm'
        omega
      rw [ih (r.apply lines) rev (List.pairwise_cons.mp hp).2 hm'
        (by rw [apply_length]; exact hlen)]
      rw [apply_getD_outside r lines rev.lineIdx hne]

/-! ### Character-class facts used by the convergence argument -/

lemma isBorderChar_not_ws (c : Char) (h : isBorderChar c = true) :
    rustIsWhitespace c = false := by
  simp only [isBorderChar, isVerticalBorder, isCorner, isJunction, Bool.or_eq_true,
    decide_eq_true_eq] at h
  repeat' rcases h with h | h
  all_goals decide

lemma isBorderChar_isBoxChar (c : Char) (h : isBorderChar c = true) :
    isBoxChar c = true := by
  simp only [isBorderChar, Bool.or_eq_true] at h
  simp only [isBoxChar, Bool.or_eq_true]
  tauto

lemma isVerticalBorder_isBorderChar (c : Char) (h : isVerticalBorder c = true) :
    isBorderChar c = true := by
  simp [isBorderChar, h]

lemma charWidth_ge_one (c : Char) : 1 ≤ charWidth c := by
  unfold charWidth
  split <;> omega

lemma visualWidth_append (a b : Line) :
    visualWidth (a ++ b) = visualWidth a + visualWidth b := by
  simp [visualWidth, List.map_append, List.sum_append]

lemma visualWidth_replicate_space (n : Nat) :
    visualWidth (List.replicate n ' ') = n := by
  have h1 : charWidth ' ' = 1 := by decide
  simp [visualWidth, List.map_replicate, List.sum_replicate, smul_eq_mul, h1]

lemma visualWidth_pos (l : Line) (h : l ≠ []) : 0 < visualWidth l := by
  cases l with
  | nil => exact absurd rfl h
  | cons c t =>
    have h1 := charWidth_ge_one c
    simp only [visualWidth, List.map_cons, List.sum_cons]
    omega

lemma dropWhile_append_single (p : Char → Bool) (c : Char) (hc : p c = false) :
    ∀ x : Line, (x ++ [c]).dropWhile p = x.dropWhile p ++ [c] := by
  intro x
  induction x with
  | nil => simp [List.dropWhile, hc]
  | cons d t ih =>
    by_cases hd : p d = true
    · simp [List.dropWhile_cons, hd, ih]
    · simp [List.dropWhile_cons, hd]

lemma trimEnd_append_not_ws (x : Line) (c : Char) (hc : rustIsWhitespace c = false) :
    trimEnd (x ++ [c]) = x ++ [c] := by
  unfold trimEnd
  rw [List.reverse_append]
  simp [List.dropWhile_cons, hc]

lemma trim_append_not_ws (x : Line) (c : Char) (hc : rustIsWhitespace c = false) :
    trim (x ++ [c]) = trimStart x ++ [c] := by
  unfold trim trimStart
  rw [dropWhile_append_single _ c hc x]
  exact trimEnd_append_not_ws _ c hc

/-- `classify_line` reports a boxy kind iff the trimmed line is nonempty and
contains a box-drawing character. -/
lemma classify_isBoxy_iff (l : Line) :
    (classifyLine l).isBoxy = true ↔
      (trim l).isEmpty = false ∧ (trim l).countP (fun c => isBoxChar c) ≠ 0 := by
  unfold classifyLine
  simp only []
  by_cases h1 : (trim l).isEmpty = true
  · rw [if_pos h1]
    constructor
    · intro hx
      exact absurd hx (by decide)
    · intro hx
      rw [h1] at hx
      exact Bool.noConfusion hx.1
  · rw [if_neg h1]
    by_cases h2 : (trim l).countP (fun c => isBoxChar c) = 0
    · rw [if_pos h2]
      constructor
      · intro hx
        exact absurd hx (by decide)
      · intro hx
        exact absurd h2 hx.2
    · rw [if_neg h2]
      constructor
      · intro _
        exact ⟨by simpa using h1, h2⟩
      · intro _
        by_cases h3 : (trim l).any isCorner = true ∨
            ((((trim l).head?.map isBorderChar).getD false = true) ∧
              (((trim l).getLast?.map isBorderChar).getD false = true)) ∨
            (trim l).countP (fun c => isBoxChar c) * 3 ≥ (trim l).length
        · have hcond : ((trim l).any isCorner ||
              (((trim l).head?.map isBorderChar).getD false &&
                ((trim l).getLast?.map isBorderChar).getD false) ||
              decide ((trim l).countP (fun c => isBoxChar c) * 3 ≥ (trim l).length)) = true := by
            simp only [Bool.or_eq_true, Bool.and_eq_true, decide_eq_true_eq]
            tauto
          rw [if_pos hcond]
          rfl
        · have hcond : ¬ ((trim l).any isCorner ||
              (((trim l).head?.map isBorderChar).getD false &&
                ((trim l).getLast?.map isBorderChar).getD false) ||
              decide ((trim l).countP (fun c => isBoxChar c) * 3 ≥ (trim l).length)) = true := by
            simp only [Bool.or_eq_true, Bool.and_eq_true, decide_eq_true_eq]
            tauto
          rw [if_neg hcond, if_pos (Nat.pos_of_ne_zero h2)]
          rfl

/-! ### Analysis of the lines produced by the two revision kinds -/

/-- Destructor for a successful `detect_suffix_border`. -/
lemma detectSuffixBorder_some_elim (l : Line) (sb : SuffixBorder)
    (h : detectSuffixBorder l = some sb) :
    (trimEnd l).getLast? = some sb.char ∧ isBorderChar sb.char = true ∧
      sb.column = visualWidth (trimEnd l).dropLast := by
  unfold detectSuffixBorder at h
  simp only [] at h
  rcases hl : (trimEnd l).getLast? with _ | lastChar
  · rw [hl] at h
    exact absurd h (by simp)
  · rw [hl] at h
    simp only [] at h
    by_cases hb : isBorderChar lastChar
    · rw [if_pos hb] at h
      injection h with h
      subst h
      exact ⟨rfl, hb, rfl⟩
    · rw [if_neg hb] at h
      exact absurd h (by simp)

/-- The concrete string a Pad revision writes when the line has a border. -/
lemma padLine_eq (l : Line) (sb : SuffixBorder)
    (h : detectSuffixBorder l = some sb) (sp : Nat) :
    padLine sp l = (trimEnd l).dropLast ++ List.replicate sp ' ' ++ [sb.char] := by
  obtain ⟨hl, hb, _⟩ := detectSuffixBorder_some_elim l sb h
  unfold padLine
  rw [hl]
  simp only []
  rw [if_pos hb]

/-- Padding moves the suffix border right by exactly the inserted width. -/
lemma detectSuffixBorder_padLine (l : Line) (sb : SuffixBorder)
    (h : detectSuffixBorder l = some sb) (sp : Nat) :
    detectSuffixBorder (padLine sp l) =
      some ⟨sb.column + sp, sb.char, isCorner sb.char || isJunction sb.char⟩ := by
  obtain ⟨hl, hb, hcol⟩ := detectSuffixBorder_some_elim l sb h
  rw [padLine_eq l sb h sp]
  have hws : rustIsWhitespace sb.char = false := isBorderChar_not_ws _ hb
  unfold detectSuffixBorder
  simp only []
  rw [trimEnd_append_not_ws _ _ hws, List.getLast?_concat]
  simp only []
  rw [if_pos hb, List.dropLast_concat, visualWidth_append, visualWidth_replicate_space,
    ← hcol]

/-- The padded line is still classified boxy, so its analysis reports the
shifted border. -/
lemma analyzeLine_padLine (l : Line) (sb : SuffixBorder)
    (h : detectSuffixBorder l = some sb) (sp : Nat) :
    (analyzeLine (padLine sp l)).suffixBorder =
      some ⟨sb.column + sp, sb.char, isCorner sb.char || isJunction sb.char⟩ := by
  have hb := (detectSuffixBorder_some_elim l sb h).2.1
  have hboxy : (classifyLine (padLine sp l)).isBoxy = true := by
    rw [classify_isBoxy_iff, padLine_eq l sb h sp,
      trim_append_not_ws _ _ (isBorderChar_not_ws _ hb)]
    constructor
    · simp
    · intro hc
      rw [List.countP_eq_zero] at hc
      exact absurd (isBorderChar_isBoxChar _ hb)
        (by simpa using hc sb.char (by simp))
  unfold analyzeLine
  simp only []
  rw [if_pos hboxy]
  exact detectSuffixBorder_padLine l sb h sp

/-- The line written by an Add revision carries a suffix border at the max of
the trimmed width and the target column. -/
lemma detectSuffixBorder_addLine (l : Line) (bc : Char) (tc : Nat)
    (hb : isBorderChar bc = true) :
    detectSuffixBorder (addLine bc tc l) =
      some ⟨visualWidth (trimEnd l) + (tc - visualWidth (trimEnd l)), bc,
        isCorner bc || isJunction bc⟩ := by
  unfold addLine detectSuffixBorder
  simp only []
  rw [trimEnd_append_not_ws _ _ (isBorderChar_not_ws _ hb), List.getLast?_concat]
  simp only []
  rw [if_pos hb, List.dropLast_concat, visualWidth_append, visualWidth_replicate_space]

/-- The Add result is boxy, so its analysis reports the new border. -/
lemma analyzeLine_addLine (l : Line) (bc : Char) (tc : Nat)
    (hb : isBorderChar bc = true) :
    (analyzeLine (addLine bc tc l)).suffixBorder =
      some ⟨visualWidth (trimEnd l) + (tc - visualWidth (trimEnd l)), bc,
        isCorner bc || isJunction bc⟩ := by
  have hboxy : (classifyLine (addLine bc tc l)).isBoxy = true := by
    rw [classify_isBoxy_iff]
    unfold addLine
    rw [trim_append_not_ws _ _ (isBorderChar_not_ws _ hb)]
    constructor
    · simp
    · intro hc
      rw [List.countP_eq_zero] at hc
      exact absurd (isBorderChar_isBoxChar _ hb)
        (by simpa using hc bc (by simp))
  unfold analyzeLine
  simp only []
  rw [if_pos hboxy]
  exact detectSuffixBorder_addLine l bc tc hb

/-! ### The analyzed block slice, positionwise -/

lemma slice_analyzed_getElem? (lines : List Line) (b : DiagramBlock) (k : Nat)
    (hk : k < b.endIdx - b.start) (hk2 : b.start + k < lines.length) :
    ((blockSlice lines b).map analyzeLine)[k]? =
      some (analyzeLine (lines.getD (b.start + k) [])) := by
  rw [List.getElem?_map, blockSlice_getElem? lines b k hk,
    getElem?_eq_some_getD _ _ hk2]
  rfl

lemma slice_analyzed_bounds (lines : List Line) (b : DiagramBlock) (k : Nat)
    (a : AnalyzedLine) (h : ((blockSlice lines b).map analyzeLine)[k]? = some a) :
    k < b.endIdx - b.start ∧ b.start + k < lines.length ∧
      a = analyzeLine (lines.getD (b.start + k) []) := by
  have hlen : k < ((blockSlice lines b).map analyzeLine).length := by
    by_contra h'
    rw [List.getElem?_eq_none (by omega)] at h
    exact Option.noConfusion h
  rw [List.length_map] at hlen
  unfold blockSlice at hlen
  rw [List.length_take, List.length_drop] at hlen
  have hk : k < b.endIdx - b.start := lt_of_lt_of_le hlen (min_le_left _ _)
  have hk2 : b.start + k < lines.length := by
    have := lt_of_lt_of_le hlen (min_le_right _ _)
    omega
  rw [slice_analyzed_getElem? lines b k hk hk2] at h
  injection h with h
  exact ⟨hk, hk2, h.symm⟩

/-- Some line of the block attains the target column. -/
lemma target_attained (lines : List Line) (b : DiagramBlock) (t : Nat)
    (ht : targetColumnOf ((blockSlice lines b).map analyzeLine) = some t) :
    ∃ (k : Nat) (a : AnalyzedLine) (sb : SuffixBorder),
      ((blockSlice lines b).map analyzeLine)[k]? = some a ∧
      a.suffixBorder = some sb ∧ sb.column = t := by
  unfold targetColumnOf at ht
  have hmem := listMaxNat_mem _ _ ht
  obtain ⟨a, ha, hsome⟩ := List.mem_filterMap.mp hmem
  rcases hsb : a.suffixBorder with _ | sb
  · rw [hsb] at hsome
    exact absurd hsome (by simp)
  · rw [hsb] at hsome
    have hcol : sb.column = t := by simpa using hsome
    obtain ⟨k, hk⟩ := List.mem_iff_getElem?.mp ha
    exact ⟨k, a, sb, hk, hsb, hcol⟩

/-- Every suffix-border column of the block is bounded by the target. -/
lemma target_ub (lines : List Line) (b : DiagramBlock) (t : Nat)
    (ht : targetColumnOf ((blockSlice lines b).map analyzeLine) = some t)
    (k : Nat) (a : AnalyzedLine) (sb : SuffixBorder)
    (hk : ((blockSlice lines b).map analyzeLine)[k]? = some a)
    (hsb : a.suffixBorder = some sb) : sb.column ≤ t := by
  obtain ⟨hk1, hk2, ha⟩ := slice_analyzed_bounds lines b k a hk
  have hsb' : (analyzeLine (lines.getD (b.start + k) [])).suffixBorder = some sb := by
    rw [← ha]; exact hsb
  obtain ⟨t', ht', hle⟩ := targetColumnOf_bound lines b (b.start + k) sb
    (by omega) (by omega) hsb'
  rw [ht] at ht'
  injection ht' with ht'
  omega

/-- Positionwise characterisation of a candidate revision. -/
lemma candidateRevs_at_pos (ord : CountList → CountList) (b : DiagramBlock)
    (lines : List Line) (rev : Revision) (h : rev ∈ candidateRevs ord b lines) :
    ∃ t, targetColumnOf ((blockSlice lines b).map analyzeLine) = some t ∧
      ∃ k a, ((blockSlice lines b).map analyzeLine)[k]? = some a ∧
        rev.lineIdx = b.start + k ∧
        ((∃ sb, a.suffixBorder = some sb ∧ sb.column < t ∧
            rev = .padBeforeSuffixBorder (b.start + k) (t - sb.column) t) ∨
         (a.suffixBorder = none ∧ a.kind.isBoxy = true ∧
            rev = .addSuffixBorder (b.start + k)
              (detectVerticalBorder ord (blockSlice lines b)) t)) := by
  unfold candidateRevs at h
  simp only [] at h
  rcases ht : targetColumnOf ((blockSlice lines b).map analyzeLine) with _ | t
  · rw [ht] at h
    simp at h
  · rw [ht] at h
    obtain ⟨k, a, hk, hcase⟩ := genRevsAux_mem_spec _ _ _ _ 0 rev h
    rw [Nat.zero_add] at hcase
    refine ⟨t, rfl, k, a, hk, ?_, hcase⟩
    rcases hcase with ⟨sb, _, _, hrev⟩ | ⟨_, _, hrev⟩ <;> rw [hrev] <;> rfl

/-- In a `Pairwise (<)`-indexed list, the index determines the element. -/
lemma pairwise_lt_inj (f : Revision → Nat) :
    ∀ (l : List Revision), l.Pairwise (fun a b => f a < f b) →
      ∀ a b, a ∈ l → b ∈ l → f a = f b → a = b := by
  intro l
  induction l with
  | nil => intro _ a b ha; simp at ha
  | cons x t ih =>
    intro hp a b ha hb he
    rcases List.mem_cons.mp ha with rfl | ha' <;> rcases List.mem_cons.mp hb with rfl | hb'
    · rfl
    · have := (List.pairwise_cons.mp hp).1 b hb'
      omega
    · have := (List.pairwise_cons.mp hp).1 a ha'
      omega
    · exact ih (List.pairwise_cons.mp hp).2 a b ha' hb' he

/-- Per-line dichotomy of one productive iteration. -/
lemma step_line_cases (cfg : Config) (ord : CountList → CountList)
    (b : DiagramBlock) (lines : List Line) (j : Nat) :
    (∃ rev ∈ validRevs cfg ord b lines, rev.lineIdx = j ∧
       (applyRevs (validRevs cfg ord b lines) lines).getD j [] =
         applyRevLine rev (lines.getD j [])) ∨
    ((∀ rev ∈ validRevs cfg ord b lines, rev.lineIdx ≠ j) ∧
       (applyRevs (validRevs cfg ord b lines) lines).getD j [] = lines.getD j []) := by
  by_cases hex : ∃ rev ∈ validRevs cfg ord b lines, rev.lineIdx = j
  · obtain ⟨rev, hm, hidx⟩ := hex
    left
    have hcand : rev ∈ candidateRevs ord b lines := List.mem_of_mem_filter hm
    obtain ⟨t, ht, k, a, hk, hkidx, _⟩ := candidateRevs_at_pos ord b lines rev hcand
    obtain ⟨_, hlt, _⟩ := slice_analyzed_bounds lines b k a hk
    have hlen : rev.lineIdx < lines.length := by omega
    refine ⟨rev, hm, hidx, ?_⟩
    rw [← hidx]
    exact applyRevs_getD_mem _ lines rev (validRevs_pairwise cfg ord b lines) hm hlen
  · right
    push_neg at hex
    exact ⟨hex, applyRevs_getD_outside _ lines j hex⟩

/-! ### The lines component of the `correct_block` loop -/

/-- The fixed-point loop of `correct_block`, lines only. -/
def iterBlock (cfg : Config) (ord : CountList → CountList) (b : DiagramBlock) :
    Nat → List Line → List Line
  | 0, lines => lines
  | fuel+1, lines =>
    if (validRevs cfg ord b lines).isEmpty then lines
    else iterBlock cfg ord b fuel (applyRevs (validRevs cfg ord b lines) lines)

lemma correctBlockGo_fst (cfg : Config) (ord : CountList → CountList)
    (b : DiagramBlock) :
    ∀ (fuel : Nat) (lines : List Line) (ap sk : Nat),
      (correctBlockGo cfg ord b fuel lines ap sk).1 = iterBlock cfg ord b fuel lines := by
  intro fuel
  induction fuel with
  | zero => intro lines ap sk; rfl
  | succ n ih =>
    intro lines ap sk
    rw [correctBlockGo, iterBlock]
    by_cases hv : (validRevs cfg ord b lines).isEmpty
    · rw [if_pos hv, if_pos hv]
    · rw [if_neg hv, if_neg hv]
      exact ih _ _ _

/-- A successful analysis border comes from `detect_suffix_border`. -/
lemma analyzeLine_suffix_some (l : Line) (sb : SuffixBorder)
    (h : (analyzeLine l).suffixBorder = some sb) :
    detectSuffixBorder l = some sb := by
  unfold analyzeLine at h
  simp only [] at h
  by_cases hb : (classifyLine l).isBoxy = true
  · rw [if_pos hb] at h
    exact h
  · rw [if_neg hb] at h
    exact absurd h (by simp)

/-- The analyzed slice at an in-range position, `getD` form. -/
lemma slice_analyzed_getD (lines : List Line) (b : DiagramBlock) (k : Nat)
    (hk : k < b.endIdx - b.start) (hk2 : b.start + k < lines.length)
    (d : AnalyzedLine) :
    ((blockSlice lines b).map analyzeLine).getD k d =
      analyzeLine (lines.getD (b.start + k) []) := by
  rw [List.getD_eq_getElem?_getD, slice_analyzed_getElem? lines b k hk hk2]
  rfl

/-- A borderless boxy line of the block yields an Add candidate. -/
lemma candidate_add_mem (ord : CountList → CountList) (b : DiagramBlock)
    (lines : List Line) (i t : Nat)
    (hi1 : b.start ≤ i) (hi2 : i < b.endIdx) (hlen : i < lines.length)
    (hsb : (analyzeLine (lines.getD i [])).suffixBorder = none)
    (hboxy : (analyzeLine (lines.getD i [])).kind.isBoxy = true)
    (ht : targetColumnOf ((blockSlice lines b).map analyzeLine) = some t) :
    Revision.addSuffixBorder i (detectVerticalBorder ord (blockSlice lines b)) t ∈
      candidateRevs ord b lines := by
  have hk : i - b.start < b.endIdx - b.start := by omega
  have hsl : (blockSlice lines b)[i - b.start]? = some (lines.getD i []) := by
    rw [blockSlice_getElem? lines b _ hk,
      show b.start + (i - b.start) = i from by omega]
    exact getElem?_eq_some_getD lines i hlen
  have han : ((blockSlice lines b).map analyzeLine)[i - b.start]? =
      some (analyzeLine (lines.getD i [])) := by
    rw [List.getElem?_map, hsl]
    rfl
  have hmem := genRevsAux_add_mem b.start (detectVerticalBorder ord (blockSlice lines b))
    t ((blockSlice lines b).map analyzeLine) 0 (i - b.start) _ han hsb hboxy
  rw [show b.start + (0 + (i - b.start)) = i from by omega] at hmem
  unfold candidateRevs
  simp only []
  rw [ht]
  exact hmem

/-- Per-position case analysis of one productive `correct_block` iteration:
each bordered-below-target or borderless-boxy line is either rewritten by its
unique revision (Pad landing exactly on target, Add creating a border) or left
unchanged because that revision scored below `min_score`; all other lines are
left unchanged. -/
lemma step_at_pos (cfg : Config) (ord : CountList → CountList) (b : DiagramBlock)
    (hord : Admissible ord) (s : List Line) (t : Nat)
    (ht : targetColumnOf ((blockSlice s b).map analyzeLine) = some t)
    (k : Nat) (hk : k < b.endIdx - b.start) (hk2 : b.start + k < s.length) :
    (∃ sb : SuffixBorder,
        (analyzeLine (s.getD (b.start + k) [])).suffixBorder = some sb ∧
        sb.column < t ∧
        (analyzeLine ((applyRevs (validRevs cfg ord b s) s).getD (b.start + k) [])).suffixBorder =
          some ⟨t, sb.char, isCorner sb.char || isJunction sb.char⟩) ∨
    (∃ sb : SuffixBorder,
        (analyzeLine (s.getD (b.start + k) [])).suffixBorder = some sb ∧
        (applyRevs (validRevs cfg ord b s) s).getD (b.start + k) [] =
          s.getD (b.start + k) [] ∧
        (sb.column < t →
          ¬ ((Revision.padBeforeSuffixBorder (b.start + k) (t - sb.column) t).score
              ((blockSlice s b).map analyzeLine) b.start ≥ cfg.effectiveMinScore))) ∨
    ((analyzeLine (s.getD (b.start + k) [])).suffixBorder = none ∧
        (analyzeLine (s.getD (b.start + k) [])).kind.isBoxy = true ∧
        Revision.addSuffixBorder (b.start + k)
            (detectVerticalBorder ord (blockSlice s b)) t ∈ validRevs cfg ord b s ∧
        ∃ sb1 : SuffixBorder,
          (analyzeLine ((applyRevs (validRevs cfg ord b s) s).getD (b.start + k) [])).suffixBorder =
            some sb1) ∨
    ((analyzeLine (s.getD (b.start + k) [])).suffixBorder = none ∧
        (analyzeLine (s.getD (b.start + k) [])).kind.isBoxy = true ∧
        (applyRevs (validRevs cfg ord b s) s).getD (b.start + k) [] =
          s.getD (b.start + k) [] ∧
        ¬ ((Revision.addSuffixBorder (b.start + k)
            (detectVerticalBorder ord (blockSlice s b)) t).score
            ((blockSlice s b).map analyzeLine) b.start ≥ cfg.effectiveMinScore)) ∨
    ((analyzeLine (s.getD (b.start + k) [])).kind.isBoxy = false ∧
        (applyRevs (validRevs cfg ord b s) s).getD (b.start + k) [] =
          s.getD (b.start + k) []) := by
  have han : ((blockSlice s b).map analyzeLine)[k]? =
      some (analyzeLine (s.getD (b.start + k) [])) :=
    slice_analyzed_getElem? s b k hk hk2
  rcases step_line_cases cfg ord b s (b.start + k) with
    ⟨rev, hm, hidx, heq⟩ | ⟨hno, heq⟩
  · -- the line was rewritten by its unique valid revision
    have hcand : rev ∈ candidateRevs ord b s := List.mem_of_mem_filter hm
    obtain ⟨t', ht', k', a', hk', hkidx, hcase⟩ := candidateRevs_at_pos ord b s rev hcand
    rw [ht] at ht'
    injection ht' with ht'
    subst ht'
    have hkk : k' = k := by omega
    rw [hkk] at hk' hcase
    rw [han] at hk'
    injection hk' with hk'
    subst hk'
    rcases hcase with ⟨sb, hsb, hlt, hrev⟩ | ⟨hsb, hboxy, hrev⟩
    · -- Pad applied: border lands exactly on target
      left
      refine ⟨sb, hsb, hlt, ?_⟩
      rw [heq, hrev]
      simp only [applyRevLine]
      have hdet : detectSuffixBorder (s.getD (b.start + k) []) = some sb :=
        analyzeLine_suffix_some _ sb hsb
      rw [analyzeLine_padLine _ sb hdet (t - sb.column)]
      have harith : sb.column + (t - sb.column) = t := by omega
      rw [harith]
    · -- Add applied: a border appears
      right; right; left
      have hbc : isBorderChar (detectVerticalBorder ord (blockSlice s b)) = true :=
        isVerticalBorder_isBorderChar _
          (detectVerticalBorder_vertical ord (blockSlice s b) (hord _))
      refine ⟨hsb, hboxy, by rw [← hrev]; exact hm, ?_⟩
      rw [heq, hrev]
      simp only [applyRevLine]
      rw [analyzeLine_addLine _ _ t hbc]
      exact ⟨_, rfl⟩
  · -- the line was left unchanged
    rcases hsb : (analyzeLine (s.getD (b.start + k) [])).suffixBorder with _ | sb
    · by_cases hboxy : (analyzeLine (s.getD (b.start + k) [])).kind.isBoxy = true
      · -- borderless boxy: the Add candidate was filtered out
        right; right; right; left
        refine ⟨rfl, hboxy, heq, ?_⟩
        have hcand := candidate_add_mem ord b s (b.start + k) t
          (by omega) (by omega) hk2 hsb hboxy ht
        intro hscore
        have hval : Revision.addSuffixBorder (b.start + k)
            (detectVerticalBorder ord (blockSlice s b)) t ∈ validRevs cfg ord b s :=
          List.mem_filter.mpr ⟨hcand, by simpa using hscore⟩
        exact hno _ hval rfl
      · right; right; right; right
        exact ⟨by simpa using hboxy, heq⟩
    · -- bordered: the Pad candidate (if any) was filtered out
      right; left
      refine ⟨sb, rfl, heq, fun hlt hscore => ?_⟩
      have hcand := candidate_pad_mem ord b s (b.start + k) sb t
        (by omega) (by omega) hsb ht hlt
      have hval : Revision.padBeforeSuffixBorder (b.start + k) (t - sb.column) t ∈
          validRevs cfg ord b s :=
        List.mem_filter.mpr ⟨hcand, by simpa using hscore⟩
      exact hno _ hval rfl

lemma score_add (i : Nat) (bc : Char) (tc : Nat) (analyzed : List AnalyzedLine)
    (bs : Nat) :
    (Revision.addSuffixBorder i bc tc).score analyzed bs =
      5/10 + (if (analyzed.getD (i - bs) (analyzeLine [])).kind = .Strong
        then (2:ℚ)/10 else 1/10) := rfl

lemma score_pad (i sp tc : Nat) (analyzed : List AnalyzedLine) (bs : Nat) :
    (Revision.padBeforeSuffixBorder i sp tc).score analyzed bs =
      8/10 - min ((sp : ℚ)/10) (5/10) +
        (if (analyzed.getD (i - bs) (analyzeLine [])).kind = .Strong
          then (2:ℚ)/10 else 0) := rfl

lemma validRevs_nonempty_target (cfg : Config) (ord : CountList → CountList)
    (b : DiagramBlock) (s : List Line) (hv : validRevs cfg ord b s ≠ []) :
    ∃ t, targetColumnOf ((blockSlice s b).map analyzeLine) = some t := by
  obtain ⟨rev, hm⟩ := List.exists_mem_of_ne_nil _ hv
  obtain ⟨t, ht, _⟩ := candidateRevs_at_pos ord b s rev (List.mem_of_mem_filter hm)
  exact ⟨t, ht⟩

/-- After a productive iteration, no Add revision passes the filter: lines it
rewrote now carry a border, and the untouched borderless boxy lines keep the
very score that was already below `min_score`. -/
lemma no_valid_add_after_step (cfg : Config) (ord : CountList → CountList)
    (b : DiagramBlock) (hord : Admissible ord) (s : List Line) (t : Nat)
    (ht : targetColumnOf ((blockSlice s b).map analyzeLine) = some t)
    (i : Nat) (bc : Char) (tc : Nat) :
    Revision.addSuffixBorder i bc tc ∉
      validRevs cfg ord b (applyRevs (validRevs cfg ord b s) s) := by
  intro hmem
  have hcand := List.mem_of_mem_filter hmem
  obtain ⟨t1, ht1, k, a1, hk1, hkidx, hcase⟩ :=
    candidateRevs_at_pos ord b _ (Revision.addSuffixBorder i bc tc) hcand
  obtain ⟨hkA, hkB, ha1⟩ := slice_analyzed_bounds _ b k a1 hk1
  rw [applyRevs_length] at hkB
  simp only [Revision.lineIdx] at hkidx
  -- the candidate must be the Add branch, and position `k` of the new state
  -- is borderless boxy
  have hsb1 : (analyzeLine ((applyRevs (validRevs cfg ord b s) s).getD (b.start + k) [])).suffixBorder = none := by
    rcases hcase with ⟨sb, hsb, _, hshape⟩ | ⟨hsb, _, _⟩
    · exact absurd hshape (by simp)
    · rw [← ha1]
      exact hsb
  have hboxy1 : (analyzeLine ((applyRevs (validRevs cfg ord b s) s).getD (b.start + k) [])).kind.isBoxy = true := by
    rcases hcase with ⟨sb, hsb, _, hshape⟩ | ⟨_, hboxy, _⟩
    · exact absurd hshape (by simp)
    · rw [← ha1]
      exact hboxy
  rcases step_at_pos cfg ord b hord s t ht k hkA hkB with
    ⟨sb, _, _, hres⟩ | ⟨sb, hsb, heq, hfilter⟩ | ⟨_, _, _, sb1, hres⟩ |
    ⟨hsbS, hboxyS, heq, hfilter⟩ | ⟨hboxyS, heq⟩
  · rw [hres] at hsb1
    exact Option.noConfusion hsb1
  · rw [heq] at hsb1
    rw [hsb1] at hsb
    exact Option.noConfusion hsb
  · rw [hres] at hsb1
    exact Option.noConfusion hsb1
  · -- untouched borderless boxy line: the score is unchanged and too small
    apply hfilter
    have hscore : ((Revision.addSuffixBorder i bc tc).score
        ((blockSlice (applyRevs (validRevs cfg ord b s) s) b).map analyzeLine) b.start ≥
          cfg.effectiveMinScore) := by
      have := (List.mem_filter.mp hmem).2
      simpa using this
    rw [score_add] at hscore
    rw [score_add]
    rw [hkidx] at hscore
    rw [show b.start + k - b.start = k from by omega] at hscore ⊢
    rw [slice_analyzed_getD _ b k hkA (by rw [applyRevs_length]; exact hkB) _] at hscore
    rw [slice_analyzed_getD s b k hkA hkB _]
    rw [heq] at hscore
    exact hscore
  · rw [heq] at hboxy1
    rw [hboxy1] at hboxyS
    exact Bool.noConfusion hboxyS

/-- A non-boxy line's analysis never reports a suffix border. -/
lemma analyzeLine_not_boxy_suffix (l : Line)
    (h : (analyzeLine l).kind.isBoxy = false) :
    (analyzeLine l).suffixBorder = none := by
  unfold analyzeLine at h ⊢
  simp only [] at h ⊢
  rw [if_neg (by simp [h])]

/-- After an iteration whose valid revisions are all Pads towards target `t1`,
every border sits at column ≤ `t1` and some border sits exactly at `t1`. -/
lemma pads_only_step_cols (cfg : Config) (ord : CountList → CountList)
    (b : DiagramBlock) (hord : Admissible ord) (s1 : List Line) (t1 : Nat)
    (ht1 : targetColumnOf ((blockSlice s1 b).map analyzeLine) = some t1)
    (hnoadd : ∀ (i : Nat) (bc : Char) (tc : Nat),
      Revision.addSuffixBorder i bc tc ∉ validRevs cfg ord b s1) :
    (∀ (k : Nat) (a : AnalyzedLine) (sb : SuffixBorder),
      ((blockSlice (applyRevs (validRevs cfg ord b s1) s1) b).map analyzeLine)[k]? = some a →
      a.suffixBorder = some sb → sb.column ≤ t1) ∧
    (∃ (k : Nat) (a : AnalyzedLine) (sb : SuffixBorder),
      ((blockSlice (applyRevs (validRevs cfg ord b s1) s1) b).map analyzeLine)[k]? = some a ∧
      a.suffixBorder = some sb ∧ sb.column = t1) := by
  constructor
  · intro k a sb hk hsb
    obtain ⟨hkA, hkB, ha⟩ := slice_analyzed_bounds _ b k a hk
    rw [applyRevs_length] at hkB
    rcases step_at_pos cfg ord b hord s1 t1 ht1 k hkA hkB with
      ⟨sb', _, _, hres⟩ | ⟨sb', hsb', heq, _⟩ | ⟨_, _, hvaladd, _⟩ |
      ⟨hsbS, _, heq, _⟩ | ⟨_, heq⟩
    · rw [ha, hres] at hsb
      injection hsb with hsb
      rw [← hsb]
    · rw [ha, heq] at hsb
      exact target_ub s1 b t1 ht1 k _ sb
        (slice_analyzed_getElem? s1 b k hkA hkB) hsb
    · exact absurd hvaladd (hnoadd _ _ _)
    · rw [ha, heq] at hsb
      rw [hsb] at hsbS
      exact Option.noConfusion hsbS
    · rw [ha, heq] at hsb
      rw [analyzeLine_not_boxy_suffix _ (by assumption)] at hsb
      exact Option.noConfusion hsb
  · obtain ⟨k, a, sb, hk, hsb, hcol⟩ := target_attained s1 b t1 ht1
    obtain ⟨hkA, hkB, ha⟩ := slice_analyzed_bounds s1 b k a hk
    rcases step_at_pos cfg ord b hord s1 t1 ht1 k hkA hkB with
      ⟨sb', hsb', hlt', hres⟩ | ⟨sb', hsb', heq, _⟩ | ⟨_, _, hvaladd, _⟩ |
      ⟨hsbS, _, _, _⟩ | ⟨hboxyS, _⟩
    · -- the attaining line was padded: its new border is at `t1`
      refine ⟨k, _, _, slice_analyzed_getElem? _ b k hkA
        (by rw [applyRevs_length]; exact hkB), hres, rfl⟩
    · -- untouched: its border is still at `t1`
      refine ⟨k, _, sb, slice_analyzed_getElem? _ b k hkA
        (by rw [applyRevs_length]; exact hkB), ?_, hcol⟩
      rw [heq, ← ha]
      exact hsb
    · exact absurd hvaladd (hnoadd _ _ _)
    · rw [← ha] at hsbS
      rw [hsb] at hsbS
      exact absurd hsbS (by simp)
    · have hcontra : (analyzeLine (s1.getD (b.start + k) [])).suffixBorder = some sb := by
        rw [← ha]; exact hsb
      rw [analyzeLine_not_boxy_suffix _ hboxyS] at hcontra
      exact Option.noConfusion hcontra

/-- Two productive iterations force convergence: after them no candidate
passes the `min_score` filter any more. -/
lemma two_step_converged (cfg : Config) (ord : CountList → CountList)
    (b : DiagramBlock) (hord : Admissible ord) (s : List Line)
    (hv0 : validRevs cfg ord b s ≠ [])
    (hv1 : validRevs cfg ord b (applyRevs (validRevs cfg ord b s) s) ≠ []) :
    validRevs cfg ord b
      (applyRevs (validRevs cfg ord b (applyRevs (validRevs cfg ord b s) s))
        (applyRevs (validRevs cfg ord b s) s)) = [] := by
  obtain ⟨t0, ht0⟩ := validRevs_nonempty_target cfg ord b s hv0
  set s1 := applyRevs (validRevs cfg ord b s) s with hs1
  obtain ⟨t1, ht1⟩ := validRevs_nonempty_target cfg ord b s1 hv1
  have hnoadd : ∀ (i : Nat) (bc : Char) (tc : Nat),
      Revision.addSuffixBorder i bc tc ∉ validRevs cfg ord b s1 :=
    fun i bc tc => no_valid_add_after_step cfg ord b hord s t0 ht0 i bc tc
  set s2 := applyRevs (validRevs cfg ord b s1) s1 with hs2
  obtain ⟨hub, hat⟩ := pads_only_step_cols cfg ord b hord s1 t1 ht1 hnoadd
  by_contra hne
  obtain ⟨rev, hmem⟩ := List.exists_mem_of_ne_nil _ hne
  have hcand := List.mem_of_mem_filter hmem
  obtain ⟨t2, ht2, k, a2, hk2, hkidx, hcase⟩ := candidateRevs_at_pos ord b s2 rev hcand
  obtain ⟨hkA, hkB2, ha2⟩ := slice_analyzed_bounds s2 b k a2 hk2
  have hlen12 : s2.length = s1.length := by rw [hs2]; exact applyRevs_length _ _
  have hkB1 : b.start + k < s1.length := by rw [← hlen12]; exact hkB2
  have htt : t2 = t1 := by
    obtain ⟨ka, aa, sba, hka, hsba, hcola⟩ := target_attained s2 b t2 ht2
    have h1 : t2 ≤ t1 := by
      rw [← hcola]
      exact hub ka aa sba hka hsba
    obtain ⟨kb, ab, sbb, hkb, hsbb, hcolb⟩ := hat
    have h2 : t1 ≤ t2 := by
      rw [← hcolb]
      exact target_ub s2 b t2 ht2 kb ab sbb hkb hsbb
    omega
  rw [htt] at hcase
  have hscore2 : rev.score ((blockSlice s2 b).map analyzeLine) b.start ≥
      cfg.effectiveMinScore := by
    have := (List.mem_filter.mp hmem).2
    simpa using this
  rcases hcase with ⟨sb2, hsb2, hlt2, hshape⟩ | ⟨hsb2, hboxy2, hshape⟩
  · -- a Pad candidate of the third iteration
    rcases step_at_pos cfg ord b hord s1 t1 ht1 k hkA hkB1 with
      ⟨sb', hsb', hlt', hres⟩ | ⟨sb', hsb', heq, hfilter⟩ | ⟨_, _, hvaladd, _⟩ |
      ⟨hsbS, _, heq, _⟩ | ⟨hboxyS, heq⟩
    · -- the line was padded onto target: its border cannot sit below `t1`
      rw [← ha2, hsb2] at hres
      injection hres with hres
      rw [hres] at hlt2
      exact absurd hlt2 (by simp)
    · -- untouched bordered line: iteration two already rejected this Pad
      rw [ha2, heq] at hsb2
      rw [hsb2] at hsb'
      injection hsb' with hsb'
      rw [← hsb'] at hfilter
      refine hfilter hlt2 ?_
      rw [hshape] at hscore2
      rw [score_pad] at hscore2 ⊢
      rw [show b.start + k - b.start = k from by omega] at hscore2 ⊢
      rw [slice_analyzed_getD s2 b k hkA hkB2 _, heq] at hscore2
      rw [slice_analyzed_getD s1 b k hkA hkB1 _]
      exact hscore2
    · exact hnoadd _ _ _ hvaladd
    · rw [ha2, heq] at hsb2
      rw [hsb2] at hsbS
      exact Option.noConfusion hsbS
    · rw [ha2, heq] at hsb2
      rw [analyzeLine_not_boxy_suffix _ hboxyS] at hsb2
      exact Option.noConfusion hsb2
  · -- an Add candidate of the third iteration
    rcases step_at_pos cfg ord b hord s1 t1 ht1 k hkA hkB1 with
      ⟨sb', hsb', hlt', hres⟩ | ⟨sb', hsb', heq, hfilter⟩ | ⟨_, _, hvaladd, _⟩ |
      ⟨hsbS, hboxyS, heq, hfilter⟩ | ⟨hboxyS, heq⟩
    · rw [← ha2, hsb2] at hres
      exact Option.noConfusion hres
    · rw [ha2, heq] at hsb2
      rw [hsb2] at hsb'
      exact Option.noConfusion hsb'
    · exact hnoadd _ _ _ hvaladd
    · -- untouched borderless boxy line: iteration two already rejected the Add
      refine hfilter ?_
      rw [hshape] at hscore2
      rw [score_add] at hscore2 ⊢
      rw [show b.start + k - b.start = k from by omega] at hscore2 ⊢
      rw [slice_analyzed_getD s2 b k hkA hkB2 _, heq] at hscore2
      rw [slice_analyzed_getD s1 b k hkA hkB1 _]
      exact hscore2
    · rw [ha2, heq] at hboxy2
      rw [hboxy2] at hboxyS
      exact Bool.noConfusion hboxyS

lemma iterBlock_of_empty (cfg : Config) (ord : CountList → CountList)
    (b : DiagramBlock) (s : List Line) (hv : validRevs cfg ord b s = []) :
    ∀ fuel, iterBlock cfg ord b fuel s = s := by
  intro fuel
  cases fuel with
  | zero => rfl
  | succ n =>
    rw [iterBlock, if_pos (by rw [hv]; rfl)]

/-- An empty block slice generates no revisions at all. -/
lemma validRevs_of_trivial_block (cfg : Config) (ord : CountList → CountList)
    (b : DiagramBlock) (hz : b.endIdx - b.start = 0) (s : List Line) :
    validRevs cfg ord b s = [] := by
  unfold validRevs candidateRevs blockSlice
  rw [hz]
  rfl

lemma iterBlock_succ_ne (cfg : Config) (ord : CountList → CountList)
    (b : DiagramBlock) (s : List Line)
    (hv : ¬ (validRevs cfg ord b s).isEmpty = true) (f : Nat) :
    iterBlock cfg ord b (f+1) s =
      iterBlock cfg ord b f (applyRevs (validRevs cfg ord b s) s) := by
  rw [iterBlock, if_neg hv]

/-- From two iterations on, the loop state never changes again. -/
lemma iterBlock_two_stable (cfg : Config) (ord : CountList → CountList)
    (b : DiagramBlock) (hord : Admissible ord) (s : List Line) :
    ∀ m, 2 ≤ m → iterBlock cfg ord b m s = iterBlock cfg ord b 2 s := by
  intro m hm
  obtain ⟨m2, rfl⟩ : ∃ m2, m = m2 + 2 := ⟨m - 2, by omega⟩
  by_cases hv0 : (validRevs cfg ord b s).isEmpty
  · have hv0' : validRevs cfg ord b s = [] := by simpa using hv0
    rw [iterBlock_of_empty cfg ord b s hv0', iterBlock_of_empty cfg ord b s hv0']
  · rw [show m2 + 2 = (m2 + 1) + 1 from rfl, iterBlock_succ_ne cfg ord b s hv0 (m2+1),
      show (2:Nat) = 1 + 1 from rfl, iterBlock_succ_ne cfg ord b s hv0 1]
    by_cases hv1 : (validRevs cfg ord b
        (applyRevs (validRevs cfg ord b s) s)).isEmpty
    · have hv1' : validRevs cfg ord b (applyRevs (validRevs cfg ord b s) s) = [] := by
        simpa using hv1
      rw [iterBlock_of_empty cfg ord b _ hv1', iterBlock_of_empty cfg ord b _ hv1']
    · rw [show m2 + 1 = m2 + 1 from rfl, iterBlock_succ_ne cfg ord b _ hv1 m2,
        show (1:Nat) = 0 + 1 from rfl, iterBlock_succ_ne cfg ord b _ hv1 0]
      have hv2 := two_step_converged cfg ord b hord s
        (by simpa using hv0) (by simpa using hv1)
      rw [iterBlock_of_empty cfg ord b _ hv2]
      rfl

/-- Any fuel of at least (block line count + 1) yields the fuel-independent
fixed point. -/
lemma iterBlock_stable (cfg : Config) (ord : CountList → CountList)
    (b : DiagramBlock) (hord : Admissible ord) (s : List Line) (m : Nat)
    (hm : b.endIdx - b.start + 1 ≤ m) :
    iterBlock cfg ord b m s = iterBlock cfg ord b (b.endIdx - b.start + 1) s := by
  rcases Nat.eq_zero_or_pos (b.endIdx - b.start) with hz | hpos
  · have hv := validRevs_of_trivial_block cfg ord b hz s
    rw [iterBlock_of_empty cfg ord b s hv, iterBlock_of_empty cfg ord b s hv]
  · rw [iterBlock_two_stable cfg ord b hord s m (by omega),
      iterBlock_two_stable cfg ord b hord s (b.endIdx - b.start + 1) (by omega)]

lemma trimStart_eq_nil_of_trimEnd_eq_nil (l : Line) (h : trimEnd l = []) :
    trimStart l = [] := by
  unfold trimEnd at h
  rw [List.reverse_eq_nil_iff] at h
  rw [List.dropWhile_eq_nil_iff] at h
  unfold trimStart
  rw [List.dropWhile_eq_nil_iff]
  intro c hc
  exact h c (List.mem_reverse.mpr hc)

lemma trimEnd_ne_nil_of_boxy (l : Line) (h : (classifyLine l).isBoxy = true) :
    trimEnd l ≠ [] := by
  intro he
  have h1 := (classify_isBoxy_iff l).mp h
  have h2 : trim l = [] := by
    unfold trim
    rw [trimStart_eq_nil_of_trimEnd_eq_nil l he]
    rfl
  rw [h2] at h1
  exact Bool.noConfusion h1.1

/-- Sum of the suffix-border columns over the block (borderless lines count
as zero). -/
def blockColSum (lines : List Line) (b : DiagramBlock) : Nat :=
  (Finset.Ico b.start b.endIdx).sum
    (fun i => (((analyzeLine (lines.getD i [])).suffixBorder).map
      SuffixBorder.column).getD 0)

/-- Each accepted revision strictly increases the block's suffix-border
column sum. -/
lemma valid_rev_increases (cfg : Config) (ord : CountList → CountList)
    (b : DiagramBlock) (hord : Admissible ord) (s : List Line) (rev : Revision)
    (hm : rev ∈ validRevs cfg ord b s) :
    blockColSum s b < blockColSum (rev.apply s) b := by
  have hcand := List.mem_of_mem_filter hm
  obtain ⟨t, ht, k, a, hk, hkidx, hcase⟩ := candidateRevs_at_pos ord b s rev hcand
  obtain ⟨hkA, hkB, ha⟩ := slice_analyzed_bounds s b k a hk
  have hlen : rev.lineIdx < s.length := by omega
  unfold blockColSum
  apply Finset.sum_lt_sum
  · intro i hi
    by_cases hij : rev.lineIdx = i
    · rw [← hij, apply_getD_self rev s hlen]
      rcases hcase with ⟨sb, hsb, hlt, hshape⟩ | ⟨hsb, hboxy, hshape⟩
      · have hdet : detectSuffixBorder (s.getD (b.start + k) []) = some sb :=
          analyzeLine_suffix_some _ sb (by rw [← ha]; exact hsb)
        rw [hkidx, hshape]
        simp only [applyRevLine]
        rw [analyzeLine_padLine _ sb hdet (t - sb.column), ← ha, hsb]
        simp only [Option.map_some', Option.getD_some]
        omega
      · rw [hkidx, ← ha, hsb]
        simp only [Option.map_none', Option.getD_none]
        exact Nat.zero_le _
    · rw [apply_getD_outside rev s i hij]
  · refine ⟨b.start + k, Finset.mem_Ico.mpr ⟨by omega, by omega⟩, ?_⟩
    rw [← hkidx, apply_getD_self rev s hlen]
    rcases hcase with ⟨sb, hsb, hlt, hshape⟩ | ⟨hsb, hboxy, hshape⟩
    · have hdet : detectSuffixBorder (s.getD (b.start + k) []) = some sb :=
        analyzeLine_suffix_some _ sb (by rw [← ha]; exact hsb)
      rw [hkidx, hshape]
      simp only [applyRevLine]
      rw [analyzeLine_padLine _ sb hdet (t - sb.column), ← ha, hsb]
      simp only [Option.map_some', Option.getD_some]
      omega
    · have hbc : isBorderChar (detectVerticalBorder ord (blockSlice s b)) = true :=
        isVerticalBorder_isBorderChar _
          (detectVerticalBorder_vertical ord (blockSlice s b) (hord _))
      have hboxyC : (classifyLine (s.getD (b.start + k) [])).isBoxy = true := by
        rw [ha] at hboxy
        exact hboxy
      have hne := trimEnd_ne_nil_of_boxy _ hboxyC
      have hwpos := visualWidth_pos _ hne
      rw [hkidx, hshape]
      simp only [applyRevLine]
      rw [analyzeLine_addLine _ _ t hbc, ← ha, hsb]
      simp only [Option.map_some', Option.map_none', Option.getD_some, Option.getD_none]
      omega

/-- Concrete data for the C4 witness: a 2-line block whose first line's
border sits below the second line's. -/
def c4Block : DiagramBlock := { start := 0, endIdx := 2, confidence := 1 }

def c4Lines : List Line := ["|a|".toList, "|bbb|".toList]

/-- Claim C4: for every block, (i) each accepted revision strictly increases
the sum of the block's suffix-border columns, and (ii) any iteration budget of
at least the block's line count plus one produces the same lines as any other
such budget — in particular the same lines as an unbounded budget — provided
the `HashMap` iteration order is admissible. -/
theorem C4_block_convergence (cfg : Config) (ord : CountList → CountList)
    (b : DiagramBlock) (s : List Line) (hord : Admissible ord) :
    (∀ rev ∈ validRevs cfg ord b s,
        blockColSum s b < blockColSum (rev.apply s) b) ∧
    (∀ m1 m2 : Nat, b.endIdx - b.start + 1 ≤ m1 → b.endIdx - b.start + 1 ≤ m2 →
        (correctBlockGo cfg ord b m1 s 0 0).1 =
          (correctBlockGo cfg ord b m2 s 0 0).1) := by
  constructor
  · intro rev hrev
    exact valid_rev_increases cfg ord b hord s rev hrev
  · intro m1 m2 h1 h2
    rw [correctBlockGo_fst, correctBlockGo_fst,
      iterBlock_stable cfg ord b hord s m1 h1,
      iterBlock_stable cfg ord b hord s m2 h2]

/-- Witness: the identity iteration order is admissible, so C4 applies to the
concrete two-line block `c4Lines`. -/
theorem C4_block_convergence_witness :
    Admissible (id : CountList → CountList) ∧
    ((∀ rev ∈ validRevs defaultConfig id c4Block c4Lines,
        blockColSum c4Lines c4Block < blockColSum (rev.apply c4Lines) c4Block) ∧
     (∀ m1 m2 : Nat, c4Block.endIdx - c4Block.start + 1 ≤ m1 →
        c4Block.endIdx - c4Block.start + 1 ≤ m2 →
        (correctBlockGo defaultConfig id c4Block m1 c4Lines 0 0).1 =
          (correctBlockGo defaultConfig id c4Block m2 c4Lines 0 0).1)) :=
  ⟨fun l => List.Perm.refl l,
   C4_block_convergence defaultConfig id c4Block c4Lines (fun l => List.Perm.refl l)⟩

/-! ## Claim C3: idempotence.  Tab-freeness is preserved along the pipeline,
a converged second run rewrites nothing, and a `max_iters = 1` run shows that
an unconverged first run breaks idempotence. -/

lemma expandTabsGo_no_tab (tw : Nat) :
    ∀ (l : Line) (col : Nat), '\t' ∉ expandTabsGo tw l col := by
  intro l
  induction l with
  | nil => intro col h; exact absurd h (List.not_mem_nil _)
  | cons c rest ih =>
    intro col h
    by_cases hc : c = '\t'
    · rw [expandTabsGo, if_pos hc] at h
      rcases List.mem_append.mp h with h1 | h2
      · exact absurd (List.eq_of_mem_replicate h1) (by decide)
      · exact ih _ h2
    · rw [expandTabsGo, if_neg hc] at h
      rcases List.mem_cons.mp h with h1 | h2
      · exact hc h1.symm
      · exact ih _ h2

lemma getD_no_tab (lines : List Line) (idx : Nat)
    (h : ∀ l ∈ lines, '\t' ∉ l) : '\t' ∉ lines.getD idx [] := by
  by_cases hidx : idx < lines.length
  · exact h _ (List.getElem?_mem (getElem?_eq_some_getD lines idx hidx))
  · rw [List.getD_eq_default _ _ (by omega)]
    exact List.not_mem_nil _

lemma trimEnd_no_tab (l : Line) (h : '\t' ∉ l) : '\t' ∉ trimEnd l :=
  fun hm => h ((trimEnd_sublist l).subset hm)

/-- Applying a revision whose border character is not a tab keeps the
document tab-free. -/
lemma apply_no_tab (rev : Revision) (lines : List Line)
    (hbc : ∀ (i : Nat) (bc : Char) (tc : Nat),
      rev = .addSuffixBorder i bc tc → bc ≠ '\t')
    (h : ∀ l ∈ lines, '\t' ∉ l) : ∀ l ∈ rev.apply lines, '\t' ∉ l := by
  have hset : ∀ (idx : Nat) (v : Line), '\t' ∉ v →
      ∀ l ∈ lines.set idx v, '\t' ∉ l := by
    intro idx v hv l hl
    rcases List.mem_or_eq_of_mem_set hl with h1 | rfl
    · exact h l h1
    · exact hv
  cases rev with
  | padBeforeSuffixBorder idx sp tc =>
    have hold : '\t' ∉ lines.getD idx [] := getD_no_tab lines idx h
    simp only [Revision.apply]
    rcases hl : (trimEnd (lines.getD idx [])).getLast? with _ | lastChar
    · exact h
    · simp only []
      by_cases hb : isBorderChar lastChar
      · rw [if_pos hb]
        refine hset idx _ (fun hm => ?_)
        rcases List.mem_append.mp hm with hm1 | hm3
        · rcases List.mem_append.mp hm1 with hma | hmb
          · exact trimEnd_no_tab _ hold ((List.dropLast_sublist _).subset hma)
          · exact absurd (List.eq_of_mem_replicate hmb) (by decide)
        · have he : '\t' = lastChar := by simpa using hm3
          refine trimEnd_no_tab _ hold ?_
          rw [he]
          obtain ⟨hne, hx⟩ := List.mem_getLast?_eq_getLast
            (show lastChar ∈ (trimEnd (lines.getD idx [])).getLast? from by rw [hl]; rfl)
          rw [hx]
          exact List.getLast_mem hne
      · rw [if_neg hb]
        exact h
  | addSuffixBorder idx bc tc =>
    have hold : '\t' ∉ lines.getD idx [] := getD_no_tab lines idx h
    simp only [Revision.apply]
    refine hset idx _ (fun hm => ?_)
    rcases List.mem_append.mp hm with hm1 | hm3
    · rcases List.mem_append.mp hm1 with hma | hmb
      · exact trimEnd_no_tab _ hold hma
      · exact absurd (List.eq_of_mem_replicate hmb) (by decide)
    · have he : '\t' = bc := by simpa using hm3
      exact hbc idx bc tc rfl he.symm

/-- Valid Add revisions use the detected vertical border, never a tab. -/
lemma validRevs_add_not_tab (cfg : Config) (ord : CountList → CountList)
    (b : DiagramBlock) (hord : Admissible ord) (s : List Line) :
    ∀ rev ∈ validRevs cfg ord b s,
      ∀ (i : Nat) (bc : Char) (tc : Nat),
        rev = .addSuffixBorder i bc tc → bc ≠ '\t' := by
  intro rev hm i bc tc hshape heq
  have hcand := List.mem_of_mem_filter hm
  obtain ⟨t, ht, k, a, hk, hkidx, hcase⟩ := candidateRevs_at_pos ord b s rev hcand
  rcases hcase with ⟨sb, _, _, hshape'⟩ | ⟨_, _, hshape'⟩
  · rw [hshape] at hshape'
    exact Revision.noConfusion hshape'
  · rw [hshape] at hshape'
    injection hshape' with h1 h2 h3
    have hv := detectVerticalBorder_vertical ord (blockSlice s b) (hord _)
    rw [← h2, heq] at hv
    exact absurd hv (by decide)

lemma applyRevs_no_tab_aux (revs : List Revision)
    (hbc : ∀ rev ∈ revs, ∀ (i : Nat) (bc : Char) (tc : Nat),
      rev = .addSuffixBorder i bc tc → bc ≠ '\t') :
    ∀ (lines : List Line), (∀ l ∈ lines, '\t' ∉ l) →
      ∀ l ∈ applyRevs revs lines, '\t' ∉ l := by
  induction revs with
  | nil => intro lines h; exact h
  | cons rev rest ih =>
    intro lines h
    rw [show applyRevs (rev :: rest) lines = applyRevs rest (rev.apply lines) from rfl]
    exact ih (fun r hr => hbc r (List.mem_cons_of_mem _ hr))
      (rev.apply lines)
      (apply_no_tab rev lines (hbc rev (List.mem_cons_self _ _)) h)

lemma correctBlockGo_no_tab (cfg : Config) (ord : CountList → CountList)
    (b : DiagramBlock) (hord : Admissible ord) :
    ∀ (fuel : Nat) (cur : List Line) (ap sk : Nat),
      (∀ l ∈ cur, '\t' ∉ l) →
      ∀ l ∈ (correctBlockGo cfg ord b fuel cur ap sk).1, '\t' ∉ l := by
  intro fuel
  induction fuel with
  | zero => intro cur ap sk h; exact h
  | succ fuel ih =>
    intro cur ap sk h
    rw [correctBlockGo]
    by_cases hv : (validRevs cfg ord b cur).isEmpty
    · rw [if_pos hv]
      exact h
    · rw [if_neg hv]
      exact ih _ _ _
        (applyRevs_no_tab_aux _ (validRevs_add_not_tab cfg ord b hord cur) cur h)

lemma foldBlocks_no_tab (cfg : Config) (ord : CountList → CountList)
    (hord : Admissible ord) :
    ∀ (blocks : List DiagramBlock) (acc : List Line × Stats),
      (∀ l ∈ acc.1, '\t' ∉ l) →
      ∀ l ∈ (blocks.foldl (correctLinesStep cfg ord) acc).1, '\t' ∉ l := by
  intro blocks
  induction blocks with
  | nil => intro acc h; exact h
  | cons b rest ih =>
    intro acc h
    rw [List.foldl_cons]
    refine ih (correctLinesStep cfg ord acc b) ?_
    unfold correctLinesStep
    by_cases hs : (match cfg.lines with
      | some ranges => !blockOverlapsRanges b ranges
      | none => false) = true
    · rw [if_pos hs]
      exact h
    · simp only []
      rw [if_neg (by simpa using hs)]
      exact correctBlockGo_no_tab cfg ord b hord cfg.maxIters acc.1 0 0 h

/-- The quick-scan passthrough equation of `correct_lines`. -/
lemma correctLines_passthrough (ord : CountList → CountList) (cfg : Config)
    (lines : List Line)
    (h : (!cfg.allBlocks && !(quickScanForDiagrams lines).likelyHasDiagrams) = true) :
    correctLines ord cfg lines =
      (lines, { blocksFound := 0, blocksModified := 0, blocksSkipped := 0,
                totalRevisions := 0, revisionsSkipped := 0,
                totalLines := lines.length }) := by
  unfold correctLines
  rw [if_pos h]

/-- The processing-path equation of `correct_lines`. -/
lemma correctLines_processing (ord : CountList → CountList) (cfg : Config)
    (lines : List Line)
    (h : ¬ (!cfg.allBlocks && !(quickScanForDiagrams lines).likelyHasDiagrams) = true) :
    correctLines ord cfg lines =
      (findDiagramBlocks (lines.map (expandTabs cfg.tabWidth)) cfg.allBlocks).foldl
        (correctLinesStep cfg ord)
        (lines.map (expandTabs cfg.tabWidth),
         { blocksFound := (findDiagramBlocks (lines.map (expandTabs cfg.tabWidth))
             cfg.allBlocks).length,
           blocksModified := 0, blocksSkipped := 0,
           totalRevisions := 0, revisionsSkipped := 0,
           totalLines := lines.length }) := by
  unfold correctLines
  rw [if_neg h]

/-- A converged block is returned unchanged by `correct_block`. -/
lemma correctBlock_fst_of_converged (cfg : Config) (ord : CountList → CountList)
    (b : DiagramBlock) (y : List Line) (hv : validRevs cfg ord b y = []) :
    (correctBlock cfg ord y b).1 = y := by
  unfold correctBlock
  cases hf : cfg.maxIters with
  | zero => rfl
  | succ n => rw [correctBlockGo, if_pos (by rw [hv]; rfl)]

/-- If every block is converged on `y`, the whole per-block fold keeps `y`. -/
lemma fold_converged (cfg : Config) (ord : CountList → CountList) (y : List Line) :
    ∀ (blocks : List DiagramBlock),
      (∀ b ∈ blocks, validRevs cfg ord b y = []) →
      ∀ (acc : List Line × Stats), acc.1 = y →
      (blocks.foldl (correctLinesStep cfg ord) acc).1 = y := by
  intro blocks
  induction blocks with
  | nil => intro _ acc ha; exact ha
  | cons b rest ih =>
    intro h acc ha
    rw [List.foldl_cons]
    refine ih (fun b' hb' => h b' (List.mem_cons_of_mem _ hb')) _ ?_
    unfold correctLinesStep
    by_cases hs : (match cfg.lines with
      | some ranges => !blockOverlapsRanges b ranges
      | none => false) = true
    · rw [if_pos hs]
      exact ha
    · simp only []
      rw [if_neg (by simpa using hs)]
      simp only []
      rw [ha]
      exact correctBlock_fst_of_converged cfg ord b y (h b (List.mem_cons_self _ _))

/-- Configuration with `max_iters = 1` (a value the validator accepts). -/
def c3Config : Config :=
  { maxIters := 1, minScore := 5/10, preset := none, tabWidth := 4,
    allBlocks := false, lines := none }

/-- A block whose first run adds a border to line 1 but, its single
iteration exhausted, never pads line 0 to the new target column. -/
def c3Lines : List Line := ["|x|".toList, "|toolongline".toList]

/-- Claim C3 counterexample: with `max_iters = 1` the second run of
`correct_lines` pads line 0 of the first run's output, so the pipeline is
not idempotent. -/
theorem C3_counterexample :
    (correctLines id c3Config ((correctLines id c3Config c3Lines).1)).1 ≠
      (correctLines id c3Config c3Lines).1 := by
  decide

/-- Claim C3 amended: `correct_lines` is idempotent at its converged states:
if every diagram block the second run would detect carries no revision
scoring at least the effective `min_score`, the second run returns the first
run's output unchanged (for an admissible `HashMap` iteration order). -/
theorem C3_idempotence_amended (cfg : Config) (ord : CountList → CountList)
    (x : List Line) (hord : Admissible ord)
    (hconv : ∀ b ∈ findDiagramBlocks
        ((correctLines ord cfg x).1.map (expandTabs cfg.tabWidth)) cfg.allBlocks,
      validRevs cfg ord b
        ((correctLines ord cfg x).1.map (expandTabs cfg.tabWidth)) = []) :
    (correctLines ord cfg ((correctLines ord cfg x).1)).1 =
      (correctLines ord cfg x).1 := by
  by_cases hgate2 : (!cfg.allBlocks &&
      !(quickScanForDiagrams ((correctLines ord cfg x).1)).likelyHasDiagrams) = true
  · rw [correctLines_passthrough ord cfg _ hgate2]
  · have hnt : ∀ l ∈ (correctLines ord cfg x).1, '\t' ∉ l := by
      by_cases hgate1 : (!cfg.allBlocks &&
          !(quickScanForDiagrams x).likelyHasDiagrams) = true
      · have hy : (correctLines ord cfg x).1 = x := by
          rw [correctLines_passthrough ord cfg x hgate1]
        rw [hy] at hgate2
        exact absurd hgate1 hgate2
      · rw [correctLines_processing ord cfg x hgate1]
        refine foldBlocks_no_tab cfg ord hord _ _ (fun l hl => ?_)
        obtain ⟨l0, _, rfl⟩ := List.mem_map.mp hl
        exact fun hm => expandTabsGo_no_tab cfg.tabWidth l0 0 hm
    have hexp : (correctLines ord cfg x).1.map (expandTabs cfg.tabWidth) =
        (correctLines ord cfg x).1 := map_expandTabs_eq_self _ _ hnt
    rw [correctLines_processing ord cfg _ hgate2]
    rw [hexp] at hconv ⊢
    exact fold_converged cfg ord _ _ hconv _ rfl

/-- Witness: an already-aligned two-line box is a converged state of the
default configuration, and the amended idempotence theorem applies to it. -/
theorem C3_idempotence_amended_witness :
    Admissible (id : CountList → CountList) ∧
    (∀ b ∈ findDiagramBlocks
        ((correctLines id defaultConfig ["|a|".toList, "|b|".toList]).1.map
          (expandTabs defaultConfig.tabWidth)) defaultConfig.allBlocks,
      validRevs defaultConfig id b
        ((correctLines id defaultConfig ["|a|".toList, "|b|".toList]).1.map
          (expandTabs defaultConfig.tabWidth)) = []) ∧
    (correctLines id defaultConfig
        ((correctLines id defaultConfig ["|a|".toList, "|b|".toList]).1)).1 =
      (correctLines id defaultConfig ["|a|".toList, "|b|".toList]).1 :=
  ⟨fun l => List.Perm.refl l, by decide,
   C3_idempotence_amended defaultConfig id ["|a|".toList, "|b|".toList]
     (fun l => List.Perm.refl l) (by decide)⟩

end Aadc
